import Mathlib

/-!
# Verification of the bun-queue job queue core

Shallow embedding of the parts of `stacksjs/devtools` (package `bun-queue`)
needed to settle the frozen claims: the distributed lock, the rate-limiter
Lua script, job submission and worker dispatch, the priority pump, retry
backoff, the work coordinator's fair distribution, the cron scheduler, and
job removal.  Redis structures are modelled explicitly: lists as `List`
(index 0 = Redis list head, the `LPUSH` side), sorted sets as lists of
(member, score) pairs with set-semantics on members, hashes as association
lists.
-/

namespace DistLock

/-- A lock store: association list from lock key to the stored token,
modelling the Redis string keys `{prefix}:{resource}`.  At most one entry
per key (Redis key semantics). -/
abbrev Store := List (String × String)

/-- `GET key` on the store. -/
def Store.get (s : Store) (k : String) : Option String :=
  (s.find? (fun e => e.1 == k)).map (·.2)

/-- `DEL key` on the store. -/
def Store.del (s : Store) (k : String) : Store :=
  s.filter (fun e => e.1 != k)

/-- `getLockKey` from `DistributedLock`: prefixes the resource. -/
def getLockKey (pre resource : String) : String :=
  pre ++ ":" ++ resource

/-- `DistributedLock.release`: read the current value of the lock key; if it
equals the caller's token, delete the key and return `true`; otherwise
return `false` and leave the store unchanged. -/
def release (pre : String) (s : Store) (resource token : String) :
    Bool × Store :=
  let lockKey := getLockKey pre resource
  match Store.get s lockKey with
  | some currentToken =>
      if currentToken == token then (true, Store.del s lockKey)
      else (false, s)
  | none => (false, s)

end DistLock

/-- C5 helper: the released store no longer holds the key. -/
theorem DistLock.get_del (s : DistLock.Store) (k : String) :
    DistLock.Store.get (DistLock.Store.del s k) k = none := by
  unfold DistLock.Store.get DistLock.Store.del
  induction s with
  | nil => rfl
  | cons e t ih =>
      by_cases h : e.1 = k
      · simp [List.filter, h]
      · simp only [List.filter]
        have hne : (e.1 != k) = true := by simp [bne, h]
        rw [hne]
        simp only [List.find?]
        have : (e.1 == k) = false := by simp [h]
        rw [this]
        exact ih

/-- **C5** Lock release compare-and-delete: `release(resource, token)`
returns `true` and deletes the lock key iff the currently stored value
equals `token`; when the stored value differs or the key is absent it
returns `false` and the store is unchanged. -/
theorem C5_release_compare_and_delete (pre : String) (s : DistLock.Store)
    (resource token : String) :
    ((DistLock.release pre s resource token).1 = true ↔
      DistLock.Store.get s (DistLock.getLockKey pre resource) = some token) ∧
    ((DistLock.release pre s resource token).1 = true →
      (DistLock.release pre s resource token).2 =
        DistLock.Store.del s (DistLock.getLockKey pre resource) ∧
      DistLock.Store.get (DistLock.release pre s resource token).2
        (DistLock.getLockKey pre resource) = none) ∧
    ((DistLock.release pre s resource token).1 = false →
      (DistLock.release pre s resource token).2 = s) := by
  simp only [DistLock.release]
  cases hget : DistLock.Store.get s (DistLock.getLockKey pre resource) with
  | none => simp [hget]
  | some cur =>
      by_cases hc : cur = token
      · subst hc
        simp only [beq_self_eq_true, if_true]
        refine ⟨by simp [hget], fun _ => ⟨by trivial, DistLock.get_del s _⟩,
          by simp⟩
      · have hb : (cur == token) = false := by simp [hc]
        simp only [hb, Bool.false_eq_true, if_false]
        exact ⟨by simp [hget, hc], by simp, fun _ => by trivial⟩

namespace BunQueue

/-- `backoff.type` from `types.ts`: `'fixed' | 'exponential'`. -/
inductive BackoffType where
  | fixed
  | exponential
deriving DecidableEq, Repr

/-- `backoff` submission option: `{type, delay}`. -/
structure BackoffOptions where
  type : BackoffType
  delay : Nat
deriving DecidableEq, Repr

/-- The submission-time job options used by the modelled code paths
(`JobOptions` in `types.ts`, restricted to the fields the claims touch).
Every field is optional, as in the TypeScript interface. -/
structure JobOptions where
  delay : Option Nat := none
  attempts : Option Nat := none
  backoff : Option BackoffOptions := none
  lifo : Option Bool := none
deriving DecidableEq, Repr

/-- JavaScript object-spread merge `{...a, ...b}` restricted to the
modelled option fields: a field of `b` that is present overrides `a`. -/
def spreadMerge (a b : JobOptions) : JobOptions where
  delay := b.delay.orElse (fun _ => a.delay)
  attempts := b.attempts.orElse (fun _ => a.attempts)
  backoff := b.backoff.orElse (fun _ => a.backoff)
  lifo := b.lifo.orElse (fun _ => a.lifo)

/-- The options object built by `Queue.add` when the rate limiter reports
`limited`: `{ ...this.defaultJobOptions, ...options, delay: limiterResult.resetIn }`
(queue.ts lines 191–195).  The recursive `this.add(data, opts)` call is made
with exactly these options. -/
def rateLimitedRetryOpts (defaultJobOptions options : JobOptions)
    (resetIn : Nat) : JobOptions :=
  { spreadMerge defaultJobOptions options with delay := some resetIn }

end BunQueue

/-- **C9 counterexample**: with a caller-requested `delay` of 100 and a
limiter reset time of 5, the re-submission options carry `delay = 5`, not
`max 100 5 = 100` as the claim states — the caller's larger delay is
shortened. -/
theorem C9_counterexample :
    (BunQueue.rateLimitedRetryOpts {} { delay := some 100 } 5).delay = some 5
      ∧ (BunQueue.rateLimitedRetryOpts {} { delay := some 100 } 5).delay
        ≠ some (max 100 5) := by
  constructor
  · rfl
  · decide

/-- **C9 (amended)**: for every default-options object, caller options and
limiter reset time, the recursive re-submission after a limited `check` is
made with `delay = resetInMs`, unconditionally replacing any
caller-requested delay. -/
theorem C9_rate_limited_resubmission_delay
    (defaultJobOptions options : BunQueue.JobOptions) (resetIn : Nat) :
    (BunQueue.rateLimitedRetryOpts defaultJobOptions options resetIn).delay
      = some resetIn := rfl

namespace BunQueue

/-- The attempts counter written back by `Job.moveToFailed` (part_006
lines 159–168): the stored and in-memory `attemptsMade` become the previous
value plus one. -/
def attemptsAfterFailure (attemptsMade : Nat) : Nat :=
  attemptsMade + 1

/-- The retry delay computed in the `catch` branch of `Worker.processJob`
(worker.ts lines 199–208), evaluated after `moveToFailed` has incremented
`attemptsMade`: `fixed` gives `backoff.delay`, `exponential` gives
`backoff.delay * 2 ** (attemptsMade - 1)`, and no backoff option gives 0. -/
def retryDelay (backoff : Option BackoffOptions) (attemptsMade : Nat) : Nat :=
  match backoff with
  | none => 0
  | some b =>
      match b.type with
      | .fixed => b.delay
      | .exponential => b.delay * 2 ^ (attemptsMade - 1)

end BunQueue

/-- **C7** Backoff delay formula: when the k-th handler failure is recorded
(`attemptsMade` goes from `k-1` to `k` in `moveToFailed`), the worker's
retry delay for `backoff = {type: exponential, delay: base}` is
`base * 2^(k-1)`, and for `{type: fixed, delay: base}` it is `base`. -/
theorem C7_backoff_delay_formula (base prevAttempts : Nat) :
    BunQueue.retryDelay (some ⟨BunQueue.BackoffType.exponential, base⟩)
        (BunQueue.attemptsAfterFailure prevAttempts)
      = base * 2 ^ (BunQueue.attemptsAfterFailure prevAttempts - 1)
    ∧ BunQueue.retryDelay (some ⟨BunQueue.BackoffType.fixed, base⟩)
        (BunQueue.attemptsAfterFailure prevAttempts)
      = base := by
  exact ⟨rfl, rfl⟩

namespace RateLimit

/-- The sorted set `limit:{identifier}`, modelled as the list of entry
scores (insertion timestamps in ms).  Member strings
(`now .. ":" .. math.random()`) serve only to make entries distinct, so an
entry is represented by its score alone. -/
abbrev Window := List Nat

/-- The triple returned by the `rateLimit-1.lua` script:
`{limited, remaining, timeToReset}`. -/
structure CheckResult where
  limited : Bool
  remaining : Nat
  resetIn : Nat
deriving DecidableEq, Repr

/-- `ZREMRANGEBYSCORE key 0 (now - duration)`: removes the entries whose
score lies in `[0, now - duration]`; since scores are non-negative the kept
entries are exactly those with `score + duration > now` (when
`now < duration` the removal range is empty and everything is kept, as in
Lua where the upper bound is negative). -/
def trim (w : Window) (now duration : Nat) : Window :=
  w.filter (fun s => decide (now < s + duration))

/-- The `rateLimit-1.lua` script: trim the window, count, decide
`limited`, compute `timeToReset` from the oldest surviving entry, insert a
new entry with score `now` when not limited, and report
`remaining = max(0, max - tokenCount)`.  Returns the result triple and the
updated window. -/
def rateLimit (w : Window) (mx duration now : Nat) : CheckResult × Window :=
  let w1 := trim w now duration
  let tokenCount := w1.length
  let limited := decide (tokenCount ≥ mx)
  let timeToReset :=
    match w1.min? with
    | some oldestToken => oldestToken + duration - now
    | none => 0
  if limited then
    ({ limited := true, remaining := mx - tokenCount,
       resetIn := timeToReset }, w1)
  else
    ({ limited := false, remaining := mx - (tokenCount + 1),
       resetIn := timeToReset }, w1 ++ [now])

/-- Modelled from the spec's words for the claim's trim step: "discarding
entries with score < now − duration", i.e. keeping the entries with
`score + duration ≥ now`.  Used only to compare the claimed boundary with
the script's actual (inclusive) removal bound. -/
def specTrim (w : Window) (now duration : Nat) : Window :=
  w.filter (fun s => decide (now ≤ s + duration))

/-- Run a sequence of `check` calls at the given timestamps against an
initial window, collecting the timestamps of the calls that return
`limited = false` (the admitted calls). -/
def admittedTimes (mx duration : Nat) : Window → List Nat → List Nat
  | _, [] => []
  | w, t :: ts =>
      let r := rateLimit w mx duration t
      if r.1.limited then admittedTimes mx duration r.2 ts
      else t :: admittedTimes mx duration r.2 ts

/-- The admitted calls are a subsequence of the call sequence. -/
theorem admittedTimes_sublist (mx duration : Nat) :
    ∀ (ts : List Nat) (w : Window),
      (admittedTimes mx duration w ts).Sublist ts := by
  intro ts
  induction ts with
  | nil => intro w; simp [admittedTimes]
  | cons t ts ih =>
      intro w
      unfold admittedTimes
      by_cases h : (rateLimit w mx duration t).1.limited
      · simp only [h, if_true]
        exact ((ih _).cons t)
      · simp only [h, Bool.false_eq_true, if_false]
        exact ((ih _).cons₂ t)

/-- Trimming at a timestamp inside the observation window does not remove
any entry with score above the window's lower edge. -/
theorem countP_trim_of_le (w : Window) (t duration wlo : Nat)
    (h : t ≤ wlo + duration) :
    (trim w t duration).countP (fun s => decide (wlo < s))
      = w.countP (fun s => decide (wlo < s)) := by
  unfold trim
  rw [List.countP_filter]
  apply List.countP_congr
  intro s _
  constructor
  · intro hs
    simp only [Bool.and_eq_true, decide_eq_true_eq] at hs ⊢
    exact hs.1
  · intro hs
    simp only [decide_eq_true_eq] at hs
    simp only [Bool.and_eq_true, decide_eq_true_eq]
    exact ⟨hs, lt_of_le_of_lt h (by omega)⟩

/-- Core counting argument for the rate-limit ceiling: along any
nondecreasing call sequence, the number of admitted calls that land in the
half-open window `(wlo, wlo + duration]` is at most `mx` minus the number
of window entries already above `wlo`. -/
theorem admitted_window_bound (mx duration wlo : Nat) :
    ∀ (ts : List Nat) (w : Window), List.Sorted (· ≤ ·) ts →
      (admittedTimes mx duration w ts).countP
          (fun t => decide (wlo < t) && decide (t ≤ wlo + duration))
        ≤ mx - w.countP (fun s => decide (wlo < s)) := by
  intro ts
  induction ts with
  | nil => intro w _; simp [admittedTimes]
  | cons t ts ih =>
      intro w hsorted
      have hsorted' : List.Sorted (· ≤ ·) ts := hsorted.of_cons
      have hhead : ∀ u ∈ ts, t ≤ u := fun u hu =>
        (List.sorted_cons.mp hsorted).1 u hu
      unfold admittedTimes
      by_cases hcross : t ≤ wlo + duration
      · -- the call is at or before the window's upper edge
        have htrim := countP_trim_of_le w t duration wlo hcross
        by_cases hlim : (rateLimit w mx duration t).1.limited
        · simp only [hlim, if_true]
          have hw2 : (rateLimit w mx duration t).2 = trim w t duration := by
            unfold rateLimit
            simp only []
            split
            · rfl
            · exact absurd hlim (by
                unfold rateLimit
                simp only []
                split
                · intro hh
                  simp_all
                · simp_all)
          rw [hw2, ]
          calc (admittedTimes mx duration (trim w t duration) ts).countP _
              ≤ mx - (trim w t duration).countP (fun s => decide (wlo < s)) :=
                ih (trim w t duration) hsorted'
            _ = mx - w.countP (fun s => decide (wlo < s)) := by rw [htrim]
        · -- admitted: the trimmed window holds fewer than mx entries
          simp only [hlim, Bool.false_eq_true, if_false]
          have hlen : (trim w t duration).length < mx := by
            by_contra hge
            apply hlim
            unfold rateLimit
            simp only []
            have : ((trim w t duration).length ≥ mx) := by omega
            simp [this]
          have hw2 : (rateLimit w mx duration t).2
              = trim w t duration ++ [t] := by
            unfold rateLimit
            simp only []
            split
            · rename_i hh
              exact absurd (by
                unfold rateLimit
                simp only []
                rw [if_pos hh]) hlim
            · rfl
          rw [hw2]
          rw [List.countP_cons]
          by_cases hin : wlo < t
          · -- the admitted call lands inside the window
            have hcnt2 : (trim w t duration ++ [t]).countP
                (fun s => decide (wlo < s))
                = w.countP (fun s => decide (wlo < s)) + 1 := by
              rw [List.countP_append, htrim]
              simp [hin]
            have hflt : w.countP (fun s => decide (wlo < s)) < mx := by
              have h1 : (trim w t duration).countP (fun s => decide (wlo < s))
                  ≤ (trim w t duration).length := List.countP_le_length _
              omega
            have := ih (trim w t duration ++ [t]) hsorted'
            rw [hcnt2] at this
            have hpred : (decide (wlo < t) && decide (t ≤ wlo + duration))
                = true := by simp [hin, hcross]
            rw [hpred, show (if (true = true) then 1 else 0) = 1 from rfl]
            omega
          · -- the admitted call is below the window
            have hcnt2 : (trim w t duration ++ [t]).countP
                (fun s => decide (wlo < s))
                = w.countP (fun s => decide (wlo < s)) := by
              rw [List.countP_append, htrim]
              simp [hin]
            have := ih (trim w t duration ++ [t]) hsorted'
            rw [hcnt2] at this
            have hpred : (decide (wlo < t) && decide (t ≤ wlo + duration))
                = false := by simp [hin]
            rw [hpred, show (if (false = true) then 1 else 0) = 0 from rfl]
            omega
      · -- the call is beyond the window: every remaining call is too,
        -- so no admitted call can land in the window
        have hzero : ∀ (w' : Window) (us : List Nat), (∀ u ∈ us, ¬ u ≤ wlo + duration) →
            (admittedTimes mx duration w' us).countP
              (fun u => decide (wlo < u) && decide (u ≤ wlo + duration)) = 0 := by
          intro w' us hus
          rw [List.countP_eq_zero]
          intro u hu
          have hmem : u ∈ us :=
            (admittedTimes_sublist mx duration us w').mem hu
          simp [hus u hmem]
        by_cases hlim : (rateLimit w mx duration t).1.limited
        · simp only [hlim, if_true]
          have := hzero (rateLimit w mx duration t).2 ts
            (fun u hu => by have := hhead u hu; omega)
          omega
        · simp only [hlim, Bool.false_eq_true, if_false]
          rw [List.countP_cons]
          have h1 := hzero (rateLimit w mx duration t).2 ts
            (fun u hu => by have := hhead u hu; omega)
          have hpred : (decide (wlo < t) && decide (t ≤ wlo + duration))
              = false := by simp [hcross]
          rw [hpred, h1, show (if (false = true) then 1 else 0) = 0 from rfl]
          omega

end RateLimit

/-- **C4 counterexample**: an entry with score exactly `now − duration`
(window `[0]`, `max = 1`, `duration = 10`, `now = 10`) is removed by the
script's inclusive `ZREMRANGEBYSCORE 0 (now-duration)`, so `check` returns
`limited = false`; but the claim's trim rule ("discard score < now −
duration") keeps it, leaving at least `max` entries, so the claim as
stated requires `limited = true`. -/
theorem C4_counterexample :
    (RateLimit.rateLimit [0] 1 10 10).1.limited = false
      ∧ (RateLimit.specTrim [0] 10 10).length ≥ 1 := by
  constructor
  · rfl
  · decide

/-- **C4 (amended)** Rate limiter window semantics, with the trim boundary
corrected from "score < now − duration" to "score ≤ now − duration":
`check` returns `limited = true` iff after discarding entries with
`score ≤ now − duration` at least `max` entries remain; when
`limited = false` exactly one new entry with score `now` is appended;
`resetIn = max(0, oldestScore + duration − now)` on a non-empty trimmed
set and 0 otherwise; and over any sliding window `(wlo, wlo + duration]`
of any nondecreasing call sequence, at most `max` calls return
`limited = false`. -/
theorem C4_rate_limiter_window (w : RateLimit.Window) (mx duration now : Nat) :
    ((RateLimit.rateLimit w mx duration now).1.limited = true
        ↔ (RateLimit.trim w now duration).length ≥ mx)
    ∧ ((RateLimit.rateLimit w mx duration now).1.limited = false →
        (RateLimit.rateLimit w mx duration now).2
          = RateLimit.trim w now duration ++ [now])
    ∧ ((RateLimit.rateLimit w mx duration now).1.limited = true →
        (RateLimit.rateLimit w mx duration now).2
          = RateLimit.trim w now duration)
    ∧ (∀ m, (RateLimit.trim w now duration).min? = some m →
        (RateLimit.rateLimit w mx duration now).1.resetIn
          = m + duration - now)
    ∧ ((RateLimit.trim w now duration).min? = none →
        (RateLimit.rateLimit w mx duration now).1.resetIn = 0)
    ∧ (∀ (ts : List Nat) (wlo : Nat), List.Sorted (· ≤ ·) ts →
        (RateLimit.admittedTimes mx duration w ts).countP
            (fun t => decide (wlo < t) && decide (t ≤ wlo + duration))
          ≤ mx) := by
  refine ⟨?_, ?_, ?_, ?_, ?_, ?_⟩
  · unfold RateLimit.rateLimit
    by_cases h : (RateLimit.trim w now duration).length ≥ mx
    · simp [h]
    · simp only []
      rw [if_neg (by simpa using h)]
      simpa using h
  · unfold RateLimit.rateLimit
    by_cases h : (RateLimit.trim w now duration).length ≥ mx
    · simp [h]
    · simp only []
      rw [if_neg (by simpa using h)]
      intro
      rfl
  · unfold RateLimit.rateLimit
    by_cases h : (RateLimit.trim w now duration).length ≥ mx
    · simp only []
      rw [if_pos (by simpa using h)]
      intro
      rfl
    · simp [h]
  · intro m hm
    unfold RateLimit.rateLimit
    simp only [hm]
    by_cases h : (RateLimit.trim w now duration).length ≥ mx
    · rw [if_pos (by simpa using h)]
    · rw [if_neg (by simpa using h)]
  · intro hm
    unfold RateLimit.rateLimit
    simp only [hm]
    by_cases h : (RateLimit.trim w now duration).length ≥ mx
    · rw [if_pos (by simpa using h)]
    · rw [if_neg (by simpa using h)]
  · intro ts wlo hsorted
    calc (RateLimit.admittedTimes mx duration w ts).countP _
        ≤ mx - w.countP (fun s => decide (wlo < s)) :=
          RateLimit.admitted_window_bound mx duration wlo ts w hsorted
      _ ≤ mx := Nat.sub_le _ _

/-- **C4 witness**: the amended theorem evaluated at a concrete window: one
surviving entry with score 5, `max = 2`, `duration = 10`, `now = 12` gives
`resetIn = 3`; and the nondecreasing call sequence `[0, 1, 2, 20]` admits
at most 2 calls inside the window `(0, 10]`. -/
theorem C4_rate_limiter_window_witness :
    (RateLimit.rateLimit [5, 100] 2 10 12).1.resetIn = 5 + 10 - 12
      ∧ (RateLimit.admittedTimes 2 10 [] [0, 1, 2, 20]).countP
          (fun t => decide (0 < t) && decide (t ≤ 0 + 10)) ≤ 2 := by
  constructor
  · exact (C4_rate_limiter_window [5, 100] 2 10 12).2.2.2.1 5 (by decide)
  · exact (C4_rate_limiter_window [] 2 10 0).2.2.2.2.2 [0, 1, 2, 20] 0
      (by decide)

namespace Dispatch

/-- Redis `LPUSH`: insert at the head of the list (index 0). -/
def lpush (jobId : Nat) (l : List Nat) : List Nat :=
  jobId :: l

/-- Redis `RPUSH`: insert at the tail of the list. -/
def rpush (jobId : Nat) (l : List Nat) : List Nat :=
  l ++ [jobId]

/-- The placement step of `Queue.add` for a job without delay and without
dependencies (queue.ts lines 306–310):
`const pushCmd = opts.lifo ? 'RPUSH' : 'LPUSH'` applied to the `waiting`
list. -/
def addToWaiting (lifo : Bool) (jobId : Nat) (waiting : List Nat) :
    List Nat :=
  if lifo then rpush jobId waiting else lpush jobId waiting

/-- The job selection of one `Worker.processJobs` pass (worker.ts lines
97–115): read up to `availableSlots` ids from the head of `waiting`
(`LRANGE waiting 0 (availableSlots-1)`), skip ids already being processed,
and dispatch the rest in that order (each is LREM'd from `waiting` and
LPUSH'd to `active` before its handler runs). -/
def dispatchOrder (processing : List Nat) (waiting : List Nat)
    (availableSlots : Nat) : List Nat :=
  (waiting.take availableSlots).filter (fun j => !(processing.contains j))

/-- `PriorityQueue.moveJobsToWaiting`, one priority level (part_005 lines
332–349): read the whole level (`LRANGE 0 -1`), delete it, and `LPUSH` its
ids onto `waiting` in reverse order. -/
def drainLevel (level : List Nat) (waiting : List Nat) : List Nat :=
  level.reverse.foldl (fun w j => lpush j w) waiting

/-- One full pump pass of `PriorityQueue.moveJobsToWaiting` (part_005
lines 323–353): drain the levels from highest (`priorityLevels - 1`) down
to lowest (0) into `waiting`.  `levels.get i` is the `priority:{i}` list,
so the source's descending loop visits `levels.reverse`. -/
def moveJobsToWaiting (levels : List (List Nat)) (waiting : List Nat) :
    List Nat :=
  levels.reverse.foldl (fun w lvl => drainLevel lvl w) waiting

/-- Draining one level prepends it to `waiting` in level order. -/
theorem drainLevel_eq_append (level waiting : List Nat) :
    drainLevel level waiting = level ++ waiting := by
  induction level generalizing waiting with
  | nil => rfl
  | cons j rest ih =>
      unfold drainLevel at *
      rw [List.reverse_cons, List.foldl_append]
      simp only [List.foldl_cons, List.foldl_nil]
      rw [ih waiting]
      simp [lpush]

end Dispatch

/-- **C3** (code bug) Waiting-list submission order: adding jobs 1 then 2
with default options puts job 2 at the head of `waiting` (`LPUSH`), and
the worker — which consumes from the head (`LRANGE 0 ..`) — dispatches
job 2 before job 1: last-in-first-out, the opposite of the claimed FIFO.
With the `lifo` flag the jobs go to the tail (as the claim says) and are
dispatched oldest-first. -/
theorem C3_default_order_is_lifo :
    Dispatch.addToWaiting false 2 (Dispatch.addToWaiting false 1 []) = [2, 1]
      ∧ Dispatch.dispatchOrder [] [2, 1] 2 = [2, 1]
      ∧ Dispatch.addToWaiting true 2 (Dispatch.addToWaiting true 1 [])
        = [1, 2]
      ∧ Dispatch.dispatchOrder [] [1, 2] 2 = [1, 2] := by
  refine ⟨rfl, by decide, rfl, by decide⟩

/-- **C2** (code bug) Priority pump ordering: with level 0 (lowest)
holding job 10 and level 1 (highest) holding job 20, one pump pass yields
`waiting = [10, 20]` — the level blocks are each LPUSH'd to the head, so
the lowest level, drained last, ends up in front — and the worker
dispatches the low-priority job 10 before the high-priority job 20,
contradicting "all higher-priority jobs before any lower-priority job".
Within one level the order is preserved (level 1 = [21, 22] stays
[21, 22]) and every job leaves the priority lists in one pass. -/
theorem C2_pump_puts_lower_priority_first :
    Dispatch.moveJobsToWaiting [[10], [20]] [] = [10, 20]
      ∧ Dispatch.dispatchOrder [] (Dispatch.moveJobsToWaiting [[10], [20]] []) 2
        = [10, 20]
      ∧ Dispatch.moveJobsToWaiting [[10], [21, 22]] [] = [10, 21, 22] := by
  refine ⟨by decide, by decide, by decide⟩

namespace Coordinator

/-- JavaScript `info.maxWorkers || maxWorkersPerInstance`: `||` falls back
to the instance-level default when the stored value is 0 or missing. -/
def effMax (dflt m : Nat) : Nat :=
  if m = 0 then dflt else m

/-- First pass of `calculateWorkerDistribution` (work-coordinator.ts lines
317–333): walk the active instances in discovery order, give each
`floor((maxWorkers / remainingCapacity) * remainingWorkers)` capped at
`maxWorkers`, decrementing the remaining counters.  The JS float division
is modelled as the exact rational floor `maxWorkers * remainingWorkers /
remainingCapacity`.  Returns the shares (in discovery order) and the final
`remainingWorkers`. -/
def firstPass (dflt : Nat) : List Nat → Nat → Nat → List Nat × Nat
  | [], remW, _ => ([], remW)
  | m :: rest, remW, remCap =>
      let maxW := effMax dflt m
      let share := min (maxW * remW / remCap) maxW
      let r := firstPass dflt rest (remW - share) (remCap - maxW)
      (share :: r.1, r.2)

/-- The filter predicate of the second pass (work-coordinator.ts lines
338–342): instance `i` still has room below its (defaulted) max. -/
def hasRoom (dflt : Nat) (ms dist : List Nat) (i : Nat) : Bool :=
  decide (dist.getD i 0 < effMax dflt (ms.getD i 0))

/-- The second-pass sort comparator (work-coordinator.ts lines 343–349):
ascending allocation ratio `distribution[a] / maxWorkers[a]`, modelled as
the exact rational comparison by cross-multiplication. -/
def ratioLe (dflt : Nat) (ms dist : List Nat) (a b : Nat) : Bool :=
  decide (dist.getD a 0 * effMax dflt (ms.getD b 0)
    ≤ dist.getD b 0 * effMax dflt (ms.getD a 0))

/-- Insert into a sorted list (stable insertion sort step), modelling the
JS `Array.prototype.sort` of the filtered index list. -/
def insertSorted (le : Nat → Nat → Bool) (x : Nat) : List Nat → List Nat
  | [] => [x]
  | y :: ys => if le x y then x :: y :: ys else y :: insertSorted le x ys

/-- Sort the filtered index list by allocation ratio. -/
def sortByRatio (le : Nat → Nat → Bool) (l : List Nat) : List Nat :=
  l.foldr (insertSorted le) []

/-- One traversal of the sorted room list (the body of the second-pass
loop, work-coordinator.ts lines 352–366): while workers remain, give one
worker to each visited instance that still has room. -/
def sweep (dflt : Nat) (ms : List Nat) :
    List Nat → List Nat → Nat → List Nat × Nat
  | [], dist, rem => (dist, rem)
  | i :: rest, dist, rem =>
      if rem = 0 then (dist, rem)
      else if dist.getD i 0 < effMax dflt (ms.getD i 0) then
        sweep dflt ms rest (dist.set i (dist.getD i 0 + 1)) (rem - 1)
      else
        sweep dflt ms rest dist rem

/-- The second-pass loop with its wrap-around (`i = -1`) restart: repeat
traversals of the room list until no workers remain.  `fuel` bounds the
number of traversals; the theorems show `fuel = remainingWorkers`
always suffices, which is the termination content of the claim. -/
def secondPass (dflt : Nat) (ms idxs : List Nat) :
    Nat → List Nat → Nat → List Nat × Nat
  | 0, dist, rem => (dist, rem)
  | fuel + 1, dist, rem =>
      if rem = 0 then (dist, rem)
      else
        let r := sweep dflt ms idxs dist rem
        secondPass dflt ms idxs fuel r.1 r.2

/-- `WorkCoordinator.calculateWorkerDistribution` (work-coordinator.ts
lines 300–370): empty result on no instances or zero workers; otherwise
cap the target at total capacity, run the proportional first pass, and if
workers remain run the remainder pass over the instances with room,
sorted ascending by allocation ratio.  The distribution is returned as a
list aligned with the instance list (an absent map entry reads as 0). -/
def calculateWorkerDistribution (dflt : Nat) (ms : List Nat)
    (totalWorkers totalMaxWorkers : Nat) : List Nat :=
  if ms.isEmpty ∨ totalWorkers = 0 then List.replicate ms.length 0
  else
    let tw := min totalWorkers totalMaxWorkers
    let fp := firstPass dflt ms tw totalMaxWorkers
    if 0 < fp.2 then
      let idxs := (List.range ms.length).filter (hasRoom dflt ms fp.1)
      let sorted := sortByRatio (ratioLe dflt ms fp.1) idxs
      (secondPass dflt ms sorted fp.2 fp.1 fp.2).1
    else
      fp.1

/-- The totals computed by `coordinateWork` (work-coordinator.ts lines
229–271) over the active instance records `(workersAssigned, maxWorkers)`:
`totalWorkers = Σ (workersAssigned || 0)` and
`totalMaxWorkers = Σ (maxWorkers || maxWorkersPerInstance)`, fed into
`calculateWorkerDistribution`. -/
def coordinatedDistribution (dflt : Nat) (records : List (Nat × Nat)) :
    List Nat :=
  calculateWorkerDistribution dflt (records.map (·.2))
    (records.map (·.1)).sum
    ((records.map (·.2)).map (effMax dflt)).sum

end Coordinator

namespace Coordinator

/-- The first pass emits one share per instance. -/
theorem firstPass_length (dflt : Nat) :
    ∀ (ms : List Nat) (remW remCap : Nat),
      (firstPass dflt ms remW remCap).1.length = ms.length := by
  intro ms
  induction ms with
  | nil => intro remW remCap; rfl
  | cons m rest ih =>
      intro remW remCap
      unfold firstPass
      simp only [List.length_cons]
      rw [ih]

/-- Every first-pass share respects the instance's (defaulted) cap. -/
theorem firstPass_caps (dflt : Nat) :
    ∀ (ms : List Nat) (remW remCap i : Nat),
      (firstPass dflt ms remW remCap).1.getD i 0
        ≤ effMax dflt (ms.getD i 0) := by
  intro ms
  induction ms with
  | nil =>
      intro remW remCap i
      simp [firstPass, List.getD]
  | cons m rest ih =>
      intro remW remCap i
      unfold firstPass
      cases i with
      | zero => simp
      | succ j => simpa using ih _ _ j

/-- A proportional share never exceeds the remaining worker budget, as
long as the instance's cap is within the remaining capacity. -/
theorem share_le_remW (maxW remW remCap : Nat) (h : maxW ≤ remCap) :
    min (maxW * remW / remCap) maxW ≤ remW := by
  rcases Nat.eq_zero_or_pos remCap with hz | hpos
  · subst hz
    have : maxW = 0 := Nat.le_zero.mp h
    simp [this]
  · refine le_trans (Nat.min_le_left _ _) ?_
    apply Nat.div_le_of_le_mul
    exact Nat.mul_le_mul_right remW h

/-- First-pass conservation: the shares and the leftover add up to the
initial worker budget, provided capacity covers the caps. -/
theorem firstPass_sum (dflt : Nat) :
    ∀ (ms : List Nat) (remW remCap : Nat),
      (ms.map (effMax dflt)).sum ≤ remCap →
      (firstPass dflt ms remW remCap).1.sum
        + (firstPass dflt ms remW remCap).2 = remW := by
  intro ms
  induction ms with
  | nil => intro remW remCap _; simp [firstPass]
  | cons m rest ih =>
      intro remW remCap hcap
      unfold firstPass
      simp only [List.map_cons, List.sum_cons] at hcap
      have hm : effMax dflt m ≤ remCap := le_trans (Nat.le_add_right _ _) hcap
      have hrest : (rest.map (effMax dflt)).sum ≤ remCap - effMax dflt m := by
        omega
      have hshare := share_le_remW (effMax dflt m) remW remCap hm
      have := ih (remW - min (effMax dflt m * remW / remCap) (effMax dflt m))
        (remCap - effMax dflt m) hrest
      simp only [List.sum_cons]
      omega

/-- `getD` after `set` at the written index. -/
theorem getD_set_self :
    ∀ (l : List Nat) (i : Nat) (v : Nat), i < l.length →
      (l.set i v).getD i 0 = v := by
  intro l
  induction l with
  | nil => intro i v h; simp at h
  | cons x xs ih =>
      intro i v h
      cases i with
      | zero => rfl
      | succ j =>
          simp only [List.set, List.getD_cons_succ]
          exact ih j v (by simpa using h)

/-- `getD` after `set` at another index. -/
theorem getD_set_ne :
    ∀ (l : List Nat) (i j : Nat) (v : Nat), i ≠ j →
      (l.set i v).getD j 0 = l.getD j 0 := by
  intro l
  induction l with
  | nil => intro i j v _; simp [List.set]
  | cons x xs ih =>
      intro i j v hne
      cases i with
      | zero =>
          cases j with
          | zero => exact absurd rfl hne
          | succ j' => rfl
      | succ i' =>
          cases j with
          | zero => rfl
          | succ j' =>
              simp only [List.set, List.getD_cons_succ]
              exact ih i' j' v (fun h => hne (by rw [h]))

/-- Incrementing one in-range entry increments the sum. -/
theorem sum_set_succ :
    ∀ (l : List Nat) (i : Nat), i < l.length →
      (l.set i (l.getD i 0 + 1)).sum = l.sum + 1 := by
  intro l
  induction l with
  | nil => intro i h; simp at h
  | cons x xs ih =>
      intro i h
      cases i with
      | zero => simp [List.set]; omega
      | succ j =>
          simp only [List.set, List.getD_cons_succ, List.sum_cons]
          rw [ih j (by simpa using h)]
          omega

end Coordinator

namespace Coordinator

/-- A sweep never changes the length of the distribution. -/
theorem sweep_length (dflt : Nat) (ms : List Nat) :
    ∀ (idxs dist : List Nat) (rem : Nat),
      (sweep dflt ms idxs dist rem).1.length = dist.length := by
  intro idxs
  induction idxs with
  | nil => intro dist rem; rfl
  | cons i rest ih =>
      intro dist rem
      unfold sweep
      by_cases hz : rem = 0
      · simp [hz]
      · simp only [hz, if_false]
        by_cases hr : dist.getD i 0 < effMax dflt (ms.getD i 0)
        · simp only [hr, if_true]
          rw [ih]
          exact List.length_set _ _ _
        · simp only [hr, if_false]
          exact ih dist rem

/-- A sweep conserves workers: distributed plus leftover is constant,
as long as every visited index is in range. -/
theorem sweep_sum (dflt : Nat) (ms : List Nat) :
    ∀ (idxs dist : List Nat) (rem : Nat),
      (∀ i ∈ idxs, i < dist.length) →
      (sweep dflt ms idxs dist rem).1.sum + (sweep dflt ms idxs dist rem).2
        = dist.sum + rem := by
  intro idxs
  induction idxs with
  | nil => intro dist rem _; rfl
  | cons i rest ih =>
      intro dist rem hbound
      unfold sweep
      by_cases hz : rem = 0
      · simp [hz]
      · simp only [hz, if_false]
        by_cases hr : dist.getD i 0 < effMax dflt (ms.getD i 0)
        · simp only [hr, if_true]
          have hib : i < dist.length := hbound i (by simp)
          have hrec := ih (dist.set i (dist.getD i 0 + 1)) (rem - 1)
            (fun j hj => by
              rw [List.length_set]
              exact hbound j (List.mem_cons_of_mem _ hj))
          rw [hrec, sum_set_succ dist i hib]
          omega
        · simp only [hr, if_false]
          exact ih dist rem (fun j hj => hbound j (List.mem_cons_of_mem _ hj))

/-- A sweep keeps every entry within its cap. -/
theorem sweep_caps (dflt : Nat) (ms : List Nat) :
    ∀ (idxs dist : List Nat) (rem : Nat),
      (∀ j, dist.getD j 0 ≤ effMax dflt (ms.getD j 0)) →
      ∀ j, (sweep dflt ms idxs dist rem).1.getD j 0
        ≤ effMax dflt (ms.getD j 0) := by
  intro idxs
  induction idxs with
  | nil => intro dist rem h j; exact h j
  | cons i rest ih =>
      intro dist rem h j
      unfold sweep
      by_cases hz : rem = 0
      · simp only [hz, if_true]; exact h j
      · simp only [hz, if_false]
        by_cases hr : dist.getD i 0 < effMax dflt (ms.getD i 0)
        · simp only [hr, if_true]
          refine ih _ _ (fun j' => ?_) j
          by_cases hj' : i = j'
          · subst hj'
            by_cases hlen : i < dist.length
            · rw [getD_set_self dist i _ hlen]; omega
            · rw [List.set_eq_of_length_le (by omega)]
              exact h i
          · rw [getD_set_ne dist i j' _ hj']
            exact h j'
        · simp only [hr, if_false]
          exact ih dist rem h j

/-- A sweep never decreases an entry. -/
theorem sweep_mono (dflt : Nat) (ms : List Nat) :
    ∀ (idxs dist : List Nat) (rem : Nat) (j : Nat),
      dist.getD j 0 ≤ (sweep dflt ms idxs dist rem).1.getD j 0 := by
  intro idxs
  induction idxs with
  | nil => intro dist rem j; exact le_refl _
  | cons i rest ih =>
      intro dist rem j
      unfold sweep
      by_cases hz : rem = 0
      · simp [hz]
      · simp only [hz, if_false]
        by_cases hr : dist.getD i 0 < effMax dflt (ms.getD i 0)
        · simp only [hr, if_true]
          refine le_trans ?_ (ih _ _ j)
          by_cases hj : i = j
          · subst hj
            by_cases hlen : i < dist.length
            · rw [getD_set_self dist i _ hlen]; omega
            · rw [List.set_eq_of_length_le (by omega)]
          · rw [getD_set_ne dist i j _ hj]
        · simp only [hr, if_false]
          exact ih dist rem j

/-- A sweep never increases the leftover. -/
theorem sweep_rem_le (dflt : Nat) (ms : List Nat) :
    ∀ (idxs dist : List Nat) (rem : Nat),
      (sweep dflt ms idxs dist rem).2 ≤ rem := by
  intro idxs
  induction idxs with
  | nil => intro dist rem; exact le_refl _
  | cons i rest ih =>
      intro dist rem
      unfold sweep
      by_cases hz : rem = 0
      · simp [hz]
      · simp only [hz, if_false]
        by_cases hr : dist.getD i 0 < effMax dflt (ms.getD i 0)
        · simp only [hr, if_true]
          exact le_trans (ih _ _) (by omega)
        · simp only [hr, if_false]
          exact ih dist rem

/-- A sweep makes progress whenever workers remain and some visited
instance has room. -/
theorem sweep_progress (dflt : Nat) (ms : List Nat) :
    ∀ (idxs dist : List Nat) (rem : Nat), 0 < rem →
      (∃ i ∈ idxs, dist.getD i 0 < effMax dflt (ms.getD i 0)) →
      (sweep dflt ms idxs dist rem).2 < rem := by
  intro idxs
  induction idxs with
  | nil => intro dist rem _ h; exact absurd h (by simp)
  | cons i rest ih =>
      intro dist rem hrem h
      unfold sweep
      have hz : ¬ rem = 0 := by omega
      simp only [hz, if_false]
      by_cases hr : dist.getD i 0 < effMax dflt (ms.getD i 0)
      · simp only [hr, if_true]
        have := sweep_rem_le dflt ms rest (dist.set i (dist.getD i 0 + 1))
          (rem - 1)
        omega
      · simp only [hr, if_false]
        obtain ⟨j, hj, hroom⟩ := h
        rcases List.mem_cons.mp hj with rfl | hj'
        · exact absurd hroom hr
        · exact ih dist rem hrem ⟨j, hj', hroom⟩

end Coordinator

namespace Coordinator

/-- Membership through sorted insertion. -/
theorem mem_insertSorted (le : Nat → Nat → Bool) (x y : Nat) :
    ∀ (l : List Nat), y ∈ insertSorted le x l ↔ y = x ∨ y ∈ l := by
  intro l
  induction l with
  | nil => simp [insertSorted]
  | cons z zs ih =>
      unfold insertSorted
      by_cases h : le x z
      · simp [h]
      · simp only [h, Bool.false_eq_true, if_false, List.mem_cons, ih]
        tauto

/-- Membership through the ratio sort. -/
theorem mem_sortByRatio (le : Nat → Nat → Bool) (y : Nat) :
    ∀ (l : List Nat), y ∈ sortByRatio le l ↔ y ∈ l := by
  intro l
  induction l with
  | nil => simp [sortByRatio]
  | cons z zs ih =>
      unfold sortByRatio at *
      simp only [List.foldr_cons, mem_insertSorted, List.mem_cons, ih]

/-- Pointwise domination of capacities gives domination of the sums. -/
theorem sum_map_le_of_pointwise (dflt : Nat) :
    ∀ (ms dist : List Nat), dist.length = ms.length →
      (∀ i, i < ms.length → effMax dflt (ms.getD i 0) ≤ dist.getD i 0) →
      (ms.map (effMax dflt)).sum ≤ dist.sum := by
  intro ms
  induction ms with
  | nil => intro dist _ _; simp
  | cons m rest ih =>
      intro dist hlen hpt
      cases dist with
      | nil => simp at hlen
      | cons d ds =>
          simp only [List.map_cons, List.sum_cons]
          have h0 := hpt 0 (by simp)
          simp only [List.getD_cons_zero] at h0
          have := ih ds (by simpa using hlen)
            (fun i hi => by simpa using hpt (i + 1) (by simpa using hi))
          omega

/-- If workers remain while the invariant `sum + rem ≤ capacity` holds,
some in-range instance still has room. -/
theorem exists_room (dflt : Nat) (ms dist : List Nat) (rem : Nat)
    (hlen : dist.length = ms.length)
    (hinv : dist.sum + rem ≤ (ms.map (effMax dflt)).sum)
    (hrem : 0 < rem) :
    ∃ i, i < ms.length ∧ dist.getD i 0 < effMax dflt (ms.getD i 0) := by
  by_contra hno
  push_neg at hno
  have hsum := sum_map_le_of_pointwise dflt ms dist hlen hno
  omega

/-- Full specification of the remainder pass: with fuel at least the
leftover, every worker is placed, the caps are respected, and the length
is unchanged.  `dist0` is the distribution the room filter and the ratio
sort were computed from. -/
theorem secondPass_spec (dflt : Nat) (ms dist0 : List Nat) :
    ∀ (fuel : Nat) (dist : List Nat) (rem : Nat),
      dist.length = ms.length →
      (∀ j, dist.getD j 0 ≤ effMax dflt (ms.getD j 0)) →
      dist.sum + rem ≤ (ms.map (effMax dflt)).sum →
      (∀ j, dist0.getD j 0 ≤ dist.getD j 0) →
      rem ≤ fuel →
      (secondPass dflt ms
          (sortByRatio (ratioLe dflt ms dist0)
            ((List.range ms.length).filter (hasRoom dflt ms dist0)))
          fuel dist rem).2 = 0
      ∧ (secondPass dflt ms
          (sortByRatio (ratioLe dflt ms dist0)
            ((List.range ms.length).filter (hasRoom dflt ms dist0)))
          fuel dist rem).1.sum = dist.sum + rem
      ∧ (secondPass dflt ms
          (sortByRatio (ratioLe dflt ms dist0)
            ((List.range ms.length).filter (hasRoom dflt ms dist0)))
          fuel dist rem).1.length = ms.length
      ∧ (∀ j, (secondPass dflt ms
          (sortByRatio (ratioLe dflt ms dist0)
            ((List.range ms.length).filter (hasRoom dflt ms dist0)))
          fuel dist rem).1.getD j 0 ≤ effMax dflt (ms.getD j 0)) := by
  intro fuel
  induction fuel with
  | zero =>
      intro dist rem hlen hcaps hinv hmono hfuel
      have : rem = 0 := by omega
      subst this
      exact ⟨rfl, by simp [secondPass], by simp [secondPass, hlen],
        fun j => by simpa [secondPass] using hcaps j⟩
  | succ fuel ih =>
      intro dist rem hlen hcaps hinv hmono hfuel
      by_cases hz : rem = 0
      · subst hz
        exact ⟨by simp [secondPass], by simp [secondPass],
          by simp [secondPass, hlen],
          fun j => by simpa [secondPass] using hcaps j⟩
      · have hrem : 0 < rem := by omega
        -- the sorted room list really contains an instance with room
        obtain ⟨i, hi, hroom⟩ := exists_room dflt ms dist rem hlen hinv hrem
        have hroom0 : dist0.getD i 0 < effMax dflt (ms.getD i 0) :=
          lt_of_le_of_lt (hmono i) hroom
        have hmem : i ∈ sortByRatio (ratioLe dflt ms dist0)
            ((List.range ms.length).filter (hasRoom dflt ms dist0)) := by
          rw [mem_sortByRatio]
          rw [List.mem_filter]
          refine ⟨List.mem_range.mpr hi, ?_⟩
          simp only [hasRoom, decide_eq_true_eq]
          exact hroom0
        have hboundall : ∀ j ∈ sortByRatio (ratioLe dflt ms dist0)
            ((List.range ms.length).filter (hasRoom dflt ms dist0)),
            j < dist.length := by
          intro j hj
          rw [mem_sortByRatio, List.mem_filter, List.mem_range] at hj
          omega
        have hprog := sweep_progress dflt ms _ dist rem hrem ⟨i, hmem, hroom⟩
        have hsum := sweep_sum dflt ms _ dist rem hboundall
        have hlen' := sweep_length dflt ms
          (sortByRatio (ratioLe dflt ms dist0)
            ((List.range ms.length).filter (hasRoom dflt ms dist0))) dist rem
        have hcaps' := sweep_caps dflt ms
          (sortByRatio (ratioLe dflt ms dist0)
            ((List.range ms.length).filter (hasRoom dflt ms dist0)))
          dist rem hcaps
        have hmono' : ∀ j, dist0.getD j 0
            ≤ (sweep dflt ms (sortByRatio (ratioLe dflt ms dist0)
              ((List.range ms.length).filter (hasRoom dflt ms dist0)))
              dist rem).1.getD j 0 :=
          fun j => le_trans (hmono j) (sweep_mono dflt ms _ dist rem j)
        have hrec := ih
          (sweep dflt ms (sortByRatio (ratioLe dflt ms dist0)
            ((List.range ms.length).filter (hasRoom dflt ms dist0)))
            dist rem).1
          (sweep dflt ms (sortByRatio (ratioLe dflt ms dist0)
            ((List.range ms.length).filter (hasRoom dflt ms dist0)))
            dist rem).2
          (by rw [hlen']; exact hlen)
          hcaps'
          (by omega)
          hmono'
          (by omega)
        have hunf : secondPass dflt ms
            (sortByRatio (ratioLe dflt ms dist0)
              ((List.range ms.length).filter (hasRoom dflt ms dist0)))
            (fuel + 1) dist rem
            = secondPass dflt ms
              (sortByRatio (ratioLe dflt ms dist0)
                ((List.range ms.length).filter (hasRoom dflt ms dist0)))
              fuel
              (sweep dflt ms (sortByRatio (ratioLe dflt ms dist0)
                ((List.range ms.length).filter (hasRoom dflt ms dist0)))
                dist rem).1
              (sweep dflt ms (sortByRatio (ratioLe dflt ms dist0)
                ((List.range ms.length).filter (hasRoom dflt ms dist0)))
                dist rem).2 := by
          conv_lhs => rw [secondPass]
          simp [hz]
        rw [hunf]
        exact ⟨hrec.1, by rw [hrec.2.1]; omega, hrec.2.2.1, hrec.2.2.2⟩

end Coordinator

namespace Coordinator

/-- `getD` of a zero-filled list is zero. -/
theorem getD_replicate_zero : ∀ (n i : Nat),
    (List.replicate n (0 : Nat)).getD i 0 = 0 := by
  intro n
  induction n with
  | zero => intro i; simp [List.getD]
  | succ k ih =>
      intro i
      cases i with
      | zero => rfl
      | succ j => simp [List.replicate]

/-- Specification of `calculateWorkerDistribution` when called, as
`coordinateWork` does, with `totalMaxWorkers` equal to the sum of the
(defaulted) per-instance caps: the result is aligned with the instance
list, sums to `min(totalWorkers, totalMaxWorkers)`, and respects every
cap.  The remainder loop finishes within its `remainingWorkers` fuel,
which is the termination content of the claim. -/
theorem calculateWorkerDistribution_spec (dflt : Nat) (ms : List Nat)
    (totalWorkers : Nat) :
    (calculateWorkerDistribution dflt ms totalWorkers
        ((ms.map (effMax dflt)).sum)).length = ms.length
    ∧ (calculateWorkerDistribution dflt ms totalWorkers
        ((ms.map (effMax dflt)).sum)).sum
      = min totalWorkers ((ms.map (effMax dflt)).sum)
    ∧ (∀ i, (calculateWorkerDistribution dflt ms totalWorkers
        ((ms.map (effMax dflt)).sum)).getD i 0
      ≤ effMax dflt (ms.getD i 0)) := by
  unfold calculateWorkerDistribution
  by_cases hempty : ms.isEmpty ∨ totalWorkers = 0
  · simp only [hempty, if_true]
    refine ⟨List.length_replicate _ _, ?_, fun i => by
      rw [getD_replicate_zero]; exact Nat.zero_le _⟩
    rcases hempty with he | hz
    · have : ms = [] := List.isEmpty_iff.mp he
      subst this
      simp
    · subst hz
      simp
  · simp only [hempty, if_false]
    push_neg at hempty
    have hcap : (ms.map (effMax dflt)).sum ≤ (ms.map (effMax dflt)).sum :=
      le_refl _
    have htw : min totalWorkers ((ms.map (effMax dflt)).sum)
        ≤ (ms.map (effMax dflt)).sum := Nat.min_le_right _ _
    have hfsum := firstPass_sum dflt ms
      (min totalWorkers ((ms.map (effMax dflt)).sum))
      ((ms.map (effMax dflt)).sum) hcap
    have hflen := firstPass_length dflt ms
      (min totalWorkers ((ms.map (effMax dflt)).sum))
      ((ms.map (effMax dflt)).sum)
    have hfcaps := firstPass_caps dflt ms
      (min totalWorkers ((ms.map (effMax dflt)).sum))
      ((ms.map (effMax dflt)).sum)
    by_cases hrem : 0 < (firstPass dflt ms
        (min totalWorkers ((ms.map (effMax dflt)).sum))
        ((ms.map (effMax dflt)).sum)).2
    · simp only [hrem, if_true]
      have hspec := secondPass_spec dflt ms
        (firstPass dflt ms (min totalWorkers ((ms.map (effMax dflt)).sum))
          ((ms.map (effMax dflt)).sum)).1
        (firstPass dflt ms (min totalWorkers ((ms.map (effMax dflt)).sum))
          ((ms.map (effMax dflt)).sum)).2
        (firstPass dflt ms (min totalWorkers ((ms.map (effMax dflt)).sum))
          ((ms.map (effMax dflt)).sum)).1
        (firstPass dflt ms (min totalWorkers ((ms.map (effMax dflt)).sum))
          ((ms.map (effMax dflt)).sum)).2
        hflen hfcaps (by omega) (fun j => le_refl _) (le_refl _)
      refine ⟨hspec.2.2.1, ?_, hspec.2.2.2⟩
      rw [hspec.2.1]
      omega
    · simp only [hrem, if_false]
      have hz : (firstPass dflt ms
          (min totalWorkers ((ms.map (effMax dflt)).sum))
          ((ms.map (effMax dflt)).sum)).2 = 0 := by omega
      exact ⟨hflen, by omega, hfcaps⟩

/-- Under positive stored caps, the defaulted caps are the stored caps. -/
theorem map_effMax_eq (dflt : Nat) :
    ∀ (ms : List Nat), (∀ m ∈ ms, 0 < m) →
      ms.map (effMax dflt) = ms := by
  intro ms hpos
  induction ms with
  | nil => rfl
  | cons m rest ih =>
      simp only [List.map_cons]
      have hm : effMax dflt m = m := by
        unfold effMax
        have := hpos m (by simp)
        rw [if_neg (by omega)]
      rw [hm, ih (fun x hx => hpos x (List.mem_cons_of_mem _ hx))]

/-- `getD` through a projection map. -/
theorem getD_map_snd :
    ∀ (records : List (Nat × Nat)) (i : Nat), i < records.length →
      (records.map (·.2)).getD i 0 = (records.getD i (0, 0)).2 := by
  intro records
  induction records with
  | nil => intro i h; simp at h
  | cons r rest ih =>
      intro i h
      cases i with
      | zero => rfl
      | succ j =>
          simp only [List.map_cons, List.getD_cons_succ]
          exact ih j (by simpa using h)

end Coordinator

/-- **C6** Coordinator fair distribution: for every list of active
instance records `(workersAssigned, maxWorkers)` with positive stored
caps (as `registerInstance` always writes), `calculateWorkerDistribution`
— invoked as `coordinateWork` invokes it, with
`totalWorkers = Σ workersAssigned` and `totalMaxWorkers = Σ maxWorkers` —
returns one assignment per instance, each at most that instance's
`maxWorkers`, summing to `min(Σ workersAssigned, Σ maxWorkers)`; the
two-pass computation completes (the remainder loop needs at most
`remainingWorkers` traversals). -/
theorem C6_fair_distribution (dflt : Nat) (records : List (Nat × Nat))
    (hpos : ∀ r ∈ records, 0 < r.2) :
    (Coordinator.coordinatedDistribution dflt records).length
        = records.length
    ∧ (Coordinator.coordinatedDistribution dflt records).sum
        = min ((records.map (·.1)).sum) ((records.map (·.2)).sum)
    ∧ (∀ i, i < records.length →
        (Coordinator.coordinatedDistribution dflt records).getD i 0
          ≤ (records.getD i (0, 0)).2) := by
  have hpos' : ∀ m ∈ records.map (·.2), 0 < m := by
    intro m hm
    obtain ⟨r, hr, rfl⟩ := List.mem_map.mp hm
    exact hpos r hr
  have hmap := Coordinator.map_effMax_eq dflt (records.map (·.2)) hpos'
  have hspec := Coordinator.calculateWorkerDistribution_spec dflt
    (records.map (·.2)) ((records.map (·.1)).sum)
  unfold Coordinator.coordinatedDistribution
  rw [hmap] at hspec ⊢
  refine ⟨by rw [hspec.1]; exact List.length_map _ _, hspec.2.1, ?_⟩
  intro i hi
  have := hspec.2.2 i
  have heff : Coordinator.effMax dflt ((records.map (·.2)).getD i 0)
      = (records.getD i (0, 0)).2 := by
    rw [Coordinator.getD_map_snd records i hi]
    unfold Coordinator.effMax
    have hp : 0 < (records.getD i (0, 0)).2 := by
      have hmem : records.getD i (0, 0) ∈ records := by
        rw [List.getD_eq_getElem?_getD]
        rw [List.getElem?_eq_getElem hi]
        exact List.getElem_mem _
      exact hpos _ hmem
    rw [if_neg (by omega)]
  rw [heff] at this
  exact this

/-- **C6 witness**: the theorem applied to two concrete instance records
`(workersAssigned, maxWorkers) = (5, 4)` and `(7, 10)`: the distribution
sums to `min (5+7) (4+10) = 12` and each instance stays within its cap. -/
theorem C6_fair_distribution_witness :
    (∀ r ∈ [((5 : Nat), (4 : Nat)), (7, 10)], 0 < r.2)
    ∧ (Coordinator.coordinatedDistribution 10 [(5, 4), (7, 10)]).sum
        = min 12 14 := by
  refine ⟨by decide, ?_⟩
  have h := C6_fair_distribution 10 [(5, 4), (7, 10)] (by decide)
  have hs := h.2.1
  simpa using hs

namespace RemoveJob

/-- The per-job hash fields `removeJob` consults: the parsed
`dependencies` array (always an array on a loaded `Job`, defaulting to
`[]`) and `finishedOn`. -/
structure JobHash where
  dependencies : List Nat := []
  finishedOn : Option Nat := none
deriving DecidableEq, Repr

/-- The queue keyspace as `Queue.removeJob` sees it: the five status
structures it LREM/SREMs, the `delayed` sorted set, the `job:{id}`
hashes and the `job:{id}:dependents` sets. -/
structure QueueState where
  waiting : List Nat
  active : List Nat
  completed : List Nat
  failed : List Nat
  depWait : List Nat
  delayed : List (Nat × Nat)
  jobs : List (Nat × JobHash)
  dependents : List (Nat × List Nat)
deriving DecidableEq, Repr

/-- `Queue.getJob`: load the hash, `null` when the key is absent. -/
def getJob (s : QueueState) (jobId : Nat) : Option JobHash :=
  (s.jobs.find? (fun e => e.1 == jobId)).map (·.2)

/-- `LREM key 0 id` / `SREM key id`: drop every occurrence. -/
def lrem (l : List Nat) (jobId : Nat) : List Nat :=
  l.filter (fun x => x != jobId)

/-- `SMEMBERS job:{id}:dependents`. -/
def smembers (s : QueueState) (jobId : Nat) : List Nat :=
  ((s.dependents.find? (fun e => e.1 == jobId)).map (·.2)).getD []

/-- The inner check of the dependent-promotion loop (queue.ts lines
563–573): every dependency other than the job being removed is finished
(a missing dependency hash counts as finished, as in the source where
only `depJob && !depJob.finishedOn` blocks). -/
def allOtherDepsFinished (s : QueueState) (removedId : Nat)
    (deps : List Nat) : Bool :=
  deps.all (fun dep =>
    dep == removedId ||
      (match getJob s dep with
       | some dj => dj.finishedOn.isSome
       | none => true))

/-- The dependent-promotion loop of `removeJob` (queue.ts lines 553–583):
for each member of the removed job's `:dependents` set whose remaining
dependencies are all finished, move it from `dependency-wait` to the head
of `waiting`.  (`depJob.dependencies` on a loaded `Job` is always an
array, so the source's truthiness guard always passes.) -/
def promoteDependents (s : QueueState) (jobId : Nat) : QueueState :=
  (smembers s jobId).foldl
    (fun st depJobId =>
      match getJob st depJobId with
      | none => st
      | some depJob =>
          if allOtherDepsFinished st jobId depJob.dependencies then
            { st with
                depWait := lrem st.depWait depJobId,
                waiting := depJobId :: st.waiting }
          else st)
    s

/-- `Queue.removeJob` (queue.ts lines 532–595): return immediately when
the job hash does not exist; otherwise remove the id from the five status
structures and the delayed set, re-evaluate dependents, delete the job
hash and its dependents set, and emit `jobRemoved`.  The second component
is the list of ids for which a `jobRemoved` event was emitted. -/
def removeJob (s : QueueState) (jobId : Nat) : QueueState × List Nat :=
  match getJob s jobId with
  | none => (s, [])
  | some _ =>
      let s1 := { s with
          active := lrem s.active jobId,
          waiting := lrem s.waiting jobId,
          completed := lrem s.completed jobId,
          failed := lrem s.failed jobId,
          depWait := lrem s.depWait jobId,
          delayed := s.delayed.filter (fun e => e.1 != jobId) }
      let s2 := promoteDependents s1 jobId
      let s3 := { s2 with
          jobs := s2.jobs.filter (fun e => e.1 != jobId),
          dependents := s2.dependents.filter (fun e => e.1 != jobId) }
      (s3, [jobId])

end RemoveJob

/-- **C10** `removeJob` on an absent id is a no-op: when the job hash does
not exist, `removeJob` returns normally with every queue structure (all
status lists, the delayed set, every job hash and dependents set)
unchanged and no `jobRemoved` event emitted. -/
theorem C10_removeJob_absent_noop (s : RemoveJob.QueueState) (jobId : Nat)
    (habsent : RemoveJob.getJob s jobId = none) :
    RemoveJob.removeJob s jobId = (s, []) := by
  unfold RemoveJob.removeJob
  rw [habsent]

/-- **C10 witness**: a concrete state holding job 1 (with job 2 waiting on
it in `dependency-wait`); removing the absent id 99 changes nothing and
emits nothing. -/
theorem C10_removeJob_absent_noop_witness :
    RemoveJob.removeJob
        ⟨[5], [1], [], [], [2], [(7, 100)], [(1, ⟨[], none⟩)], [(1, [2])]⟩ 99
      = (⟨[5], [1], [], [], [2], [(7, 100)], [(1, ⟨[], none⟩)], [(1, [2])]⟩,
        []) :=
  C10_removeJob_absent_noop _ 99 (by decide)

/-!
## C1: the queue state machine

One step per observable queue operation of the claim (add in its three
placements, delayed promotion, dispatch, completion with dependent
promotion, the three retry shapes of the worker's failure path, the
dead-letter move, stalled recovery, and bulk pause/resume), each
transcribed from the Redis commands the source issues.  `failRetryDelay`
is `Job.moveToFailed` (LREM active / LPUSH failed) followed by the
worker's `ZADD delayed` (worker.ts lines 210–218) — note that nothing
removes the id from `failed` on that path.  `failRetryNow` is
`moveToFailed` followed by `Job.retry` (LREM failed 0 / LPUSH waiting);
`failDeadLetter` is `moveToFailed` followed by
`DeadLetterQueue.moveToDeadLetter` (LPUSH dead-letter, LREM failed when
`removeFromOriginalQueue`).  Dependent promotion is modelled for
dependents still in `dependency-wait`.
-/

namespace QSM

/-- `LREM key 0 id`: drop every occurrence of the id. -/
def lremAll (l : List Nat) (j : Nat) : List Nat :=
  l.filter (fun x => x != j)

/-- `ZREM delayed id`. -/
def zrem (d : List (Nat × Nat)) (j : Nat) : List (Nat × Nat) :=
  d.filter (fun e => e.1 != j)

structure QState where
  waiting : List Nat
  active : List Nat
  completed : List Nat
  failed : List Nat
  delayed : List (Nat × Nat)
  paused : List Nat
  depWait : List Nat
  deadLetter : List Nat
deriving DecidableEq, Repr

def initState : QState := ⟨[], [], [], [], [], [], [], []⟩

/-- A job id unused anywhere in the keyspace (a freshly generated id). -/
def Fresh (s : QState) (j : Nat) : Prop :=
  j ∉ s.waiting ∧ j ∉ s.active ∧ j ∉ s.completed ∧ j ∉ s.failed ∧
  j ∉ s.delayed.map Prod.fst ∧ j ∉ s.paused ∧ j ∉ s.depWait ∧
  j ∉ s.deadLetter

instance (s : QState) (j : Nat) : Decidable (Fresh s j) := by
  unfold Fresh; infer_instance

inductive Step : QState → QState → Prop where
  | addWaiting (s : QState) (j : Nat) (lifo : Bool) (hf : Fresh s j) :
      Step s { s with waiting := Dispatch.addToWaiting lifo j s.waiting }
  | addDelayed (s : QState) (j t : Nat) (hf : Fresh s j) :
      Step s { s with delayed := (j, t) :: s.delayed }
  | addDepWait (s : QState) (j : Nat) (hf : Fresh s j) :
      Step s { s with depWait := j :: s.depWait }
  | promoteDelayed (s : QState) (j : Nat) (h : j ∈ s.delayed.map Prod.fst) :
      Step s { s with delayed := zrem s.delayed j,
                      waiting := j :: s.waiting }
  | dispatch (s : QState) (j : Nat) (h : j ∈ s.waiting) :
      Step s { s with waiting := s.waiting.erase j,
                      active := j :: s.active }
  | complete (s : QState) (j : Nat) (h : j ∈ s.active) :
      Step s { s with active := lremAll s.active j,
                      completed := j :: s.completed }
  | promoteDependent (s : QState) (j : Nat) (h : j ∈ s.depWait) :
      Step s { s with depWait := lremAll s.depWait j,
                      waiting := j :: s.waiting }
  | failNoRetry (s : QState) (j : Nat) (h : j ∈ s.active) :
      Step s { s with active := lremAll s.active j,
                      failed := j :: s.failed }
  | failRetryDelay (s : QState) (j t : Nat) (h : j ∈ s.active) :
      Step s { s with active := lremAll s.active j,
                      failed := j :: s.failed,
                      delayed := (j, t) :: s.delayed }
  | failRetryNow (s : QState) (j : Nat) (h : j ∈ s.active) :
      Step s { s with active := lremAll s.active j,
                      failed := lremAll (j :: s.failed) j,
                      waiting := j :: s.waiting }
  | failDeadLetter (s : QState) (j : Nat) (removeFromOriginal : Bool)
      (h : j ∈ s.active) :
      Step s { s with active := lremAll s.active j,
                      failed := if removeFromOriginal
                        then lremAll (j :: s.failed) j
                        else j :: s.failed,
                      deadLetter := j :: s.deadLetter }
  | stalledRecover (s : QState) (j : Nat) (h : j ∈ s.active) :
      Step s { s with active := lremAll s.active j,
                      waiting := j :: s.waiting }
  | pauseJob (s : QState) (j : Nat)
      (h : j ∈ s.waiting ∨ j ∈ s.delayed.map Prod.fst) :
      Step s { s with waiting := lremAll s.waiting j,
                      delayed := zrem s.delayed j,
                      paused := j :: s.paused }
  | resumeJob (s : QState) (j : Nat) (h : j ∈ s.paused) :
      Step s { s with paused := lremAll s.paused j,
                      waiting := j :: s.waiting }

def Reach (s : QState) : Prop :=
  Relation.ReflTransGen Step initState s

def memCount (s : QState) (j : Nat) : Nat :=
  (if j ∈ s.waiting then 1 else 0) +
  (if j ∈ s.active then 1 else 0) +
  (if j ∈ s.completed then 1 else 0) +
  (if j ∈ s.delayed.map Prod.fst then 1 else 0) +
  (if j ∈ s.paused then 1 else 0) +
  (if j ∈ s.depWait then 1 else 0) +
  (if j ∈ s.deadLetter then 1 else 0)

def memCountFull (s : QState) (j : Nat) : Nat :=
  memCount s j + (if j ∈ s.failed then 1 else 0)

structure Inv (s : QState) : Prop where
  ndW : s.waiting.Nodup
  ndA : s.active.Nodup
  ndC : s.completed.Nodup
  ndD : (s.delayed.map Prod.fst).Nodup
  ndP : s.paused.Nodup
  ndDW : s.depWait.Nodup
  ndDL : s.deadLetter.Nodup
  excl : ∀ j, memCount s j ≤ 1

theorem mem_lremAll (l : List Nat) (j x : Nat) :
    x ∈ lremAll l j ↔ x ∈ l ∧ x ≠ j := by
  unfold lremAll
  simp [List.mem_filter]

theorem not_mem_lremAll (l : List Nat) (j : Nat) : j ∉ lremAll l j := by
  simp [mem_lremAll]

theorem nodup_lremAll (l : List Nat) (j : Nat) (h : l.Nodup) :
    (lremAll l j).Nodup := h.filter _

theorem map_fst_zrem (d : List (Nat × Nat)) (j : Nat) :
    (zrem d j).map Prod.fst = lremAll (d.map Prod.fst) j := by
  unfold zrem lremAll
  induction d with
  | nil => rfl
  | cons e rest ih =>
      by_cases he : e.1 = j
      · simp [List.filter, he, ih]
      · simp only [List.filter, List.map_cons]
        have : (e.1 != j) = true := by simp [he]
        rw [this]
        simp only [List.map_cons, this]
        rw [ih]

theorem inv_init : Inv initState := by
  refine ⟨by simp [initState], by simp [initState], by simp [initState],
    by simp [initState], by simp [initState], by simp [initState],
    by simp [initState], fun j => ?_⟩
  simp [memCount, initState]

theorem memCount_congr (s' s : QState) (j : Nat)
    (hw : j ∈ s'.waiting ↔ j ∈ s.waiting)
    (ha : j ∈ s'.active ↔ j ∈ s.active)
    (hc : j ∈ s'.completed ↔ j ∈ s.completed)
    (hd : j ∈ s'.delayed.map Prod.fst ↔ j ∈ s.delayed.map Prod.fst)
    (hp : j ∈ s'.paused ↔ j ∈ s.paused)
    (hdw : j ∈ s'.depWait ↔ j ∈ s.depWait)
    (hdl : j ∈ s'.deadLetter ↔ j ∈ s.deadLetter) :
    memCount s' j = memCount s j := by
  unfold memCount
  rw [if_congr hw rfl rfl, if_congr ha rfl rfl, if_congr hc rfl rfl,
      if_congr hd rfl rfl, if_congr hp rfl rfl, if_congr hdw rfl rfl,
      if_congr hdl rfl rfl]

theorem inv_step {s s' : QState} (hstep : Step s s') (hinv : Inv s) :
    Inv s' := by
  obtain ⟨ndW, ndA, ndC, ndD, ndP, ndDW, ndDL, excl⟩ := hinv
  cases hstep with
  | addWaiting j lifo hf =>
      obtain ⟨f1, f2, f3, f4, f5, f6, f7, f8⟩ := hf
      refine ⟨?_, ndA, ndC, ndD, ndP, ndDW, ndDL, fun x => ?_⟩
      · unfold Dispatch.addToWaiting Dispatch.rpush Dispatch.lpush
        cases lifo <;> simp [ndW, f1, List.nodup_append]
      · by_cases hx : x = j
        · subst hx
          have hwmem : x ∈ Dispatch.addToWaiting lifo x s.waiting := by
            unfold Dispatch.addToWaiting Dispatch.rpush Dispatch.lpush
            cases lifo <;> simp
          unfold memCount
          simp only [hwmem, f2, f3, f5, f6, f7, f8, if_true, if_false]
          omega
        · have hcg := memCount_congr { s with
              waiting := Dispatch.addToWaiting lifo j s.waiting } s x
            (by unfold Dispatch.addToWaiting Dispatch.rpush Dispatch.lpush
                cases lifo <;> simp [hx])
            Iff.rfl Iff.rfl Iff.rfl Iff.rfl Iff.rfl Iff.rfl
          rw [hcg]; exact excl x
  | addDelayed j t hf =>
      obtain ⟨f1, f2, f3, f4, f5, f6, f7, f8⟩ := hf
      refine ⟨ndW, ndA, ndC, ?_, ndP, ndDW, ndDL, fun x => ?_⟩
      · have hmapc : ((j, t) :: s.delayed).map Prod.fst
            = j :: s.delayed.map Prod.fst := rfl
        rw [hmapc]
        exact List.nodup_cons.mpr ⟨f5, ndD⟩
      · by_cases hx : x = j
        · subst hx
          have hdm : x ∈ ((x, t) :: s.delayed).map Prod.fst := by simp
          unfold memCount
          simp only [hdm, f1, f2, f3, f6, f7, f8, if_true, if_false]
          omega
        · have hcg := memCount_congr { s with
              delayed := (j, t) :: s.delayed } s x
            Iff.rfl Iff.rfl Iff.rfl (by simp [hx]) Iff.rfl Iff.rfl Iff.rfl
          rw [hcg]; exact excl x
  | addDepWait j hf =>
      obtain ⟨f1, f2, f3, f4, f5, f6, f7, f8⟩ := hf
      refine ⟨ndW, ndA, ndC, ndD, ndP, ?_, ndDL, fun x => ?_⟩
      · exact List.nodup_cons.mpr ⟨f7, ndDW⟩
      · by_cases hx : x = j
        · subst hx
          have hm : x ∈ x :: s.depWait := by simp
          unfold memCount
          simp only [hm, f1, f2, f3, f5, f6, f8, if_true, if_false]
          omega
        · have hcg := memCount_congr { s with
              depWait := j :: s.depWait } s x
            Iff.rfl Iff.rfl Iff.rfl Iff.rfl Iff.rfl (by simp [hx]) Iff.rfl
          rw [hcg]; exact excl x
  | promoteDelayed j h =>
      have hcnt := excl j
      have hnw : j ∉ s.waiting := by
        intro hmem
        unfold memCount at hcnt
        simp only [h, hmem, if_true] at hcnt
        omega
      have hna : j ∉ s.active := by
        intro hmem
        unfold memCount at hcnt
        simp only [h, hmem, if_true] at hcnt
        omega
      have hnc : j ∉ s.completed := by
        intro hmem
        unfold memCount at hcnt
        simp only [h, hmem, if_true] at hcnt
        omega
      have hnp : j ∉ s.paused := by
        intro hmem
        unfold memCount at hcnt
        simp only [h, hmem, if_true] at hcnt
        omega
      have hndw : j ∉ s.depWait := by
        intro hmem
        unfold memCount at hcnt
        simp only [h, hmem, if_true] at hcnt
        omega
      have hndl : j ∉ s.deadLetter := by
        intro hmem
        unfold memCount at hcnt
        simp only [h, hmem, if_true] at hcnt
        omega
      refine ⟨List.nodup_cons.mpr ⟨hnw, ndW⟩, ndA, ndC, ?_, ndP, ndDW, ndDL,
        fun x => ?_⟩
      · rw [map_fst_zrem]; exact nodup_lremAll _ _ ndD
      · by_cases hx : x = j
        · subst hx
          have hw' : x ∈ x :: s.waiting := by simp
          have hd' : x ∉ (zrem s.delayed x).map Prod.fst := by
            rw [map_fst_zrem]; exact not_mem_lremAll _ _
          unfold memCount
          simp only [hw', hna, hnc, hd', hnp, hndw, hndl, if_true, if_false]
          omega
        · have hcg := memCount_congr { s with
              delayed := zrem s.delayed j, waiting := j :: s.waiting } s x
            (by simp [hx])
            Iff.rfl Iff.rfl
            (by rw [map_fst_zrem]; rw [mem_lremAll]; simp [hx])
            Iff.rfl Iff.rfl Iff.rfl
          rw [hcg]; exact excl x
  | dispatch j h =>
      have hcnt := excl j
      have hna : j ∉ s.active := by
        intro hmem
        unfold memCount at hcnt
        simp only [h, hmem, if_true] at hcnt
        omega
      have hnc : j ∉ s.completed := by
        intro hmem
        unfold memCount at hcnt
        simp only [h, hmem, if_true] at hcnt
        omega
      have hnd : j ∉ s.delayed.map Prod.fst := by
        intro hmem
        unfold memCount at hcnt
        simp only [h, hmem, if_true] at hcnt
        omega
      have hnp : j ∉ s.paused := by
        intro hmem
        unfold memCount at hcnt
        simp only [h, hmem, if_true] at hcnt
        omega
      have hndw : j ∉ s.depWait := by
        intro hmem
        unfold memCount at hcnt
        simp only [h, hmem, if_true] at hcnt
        omega
      have hndl : j ∉ s.deadLetter := by
        intro hmem
        unfold memCount at hcnt
        simp only [h, hmem, if_true] at hcnt
        omega
      refine ⟨ndW.erase j, List.nodup_cons.mpr ⟨hna, ndA⟩, ndC, ndD, ndP,
        ndDW, ndDL, fun x => ?_⟩
      · by_cases hx : x = j
        · subst hx
          have hw' : x ∉ s.waiting.erase x := by
            rw [ndW.mem_erase_iff]
            simp
          have ha' : x ∈ x :: s.active := by simp
          unfold memCount
          simp only [hw', ha', hnc, hnd, hnp, hndw, hndl, if_true, if_false]
          omega
        · have hcg := memCount_congr { s with
              waiting := s.waiting.erase j, active := j :: s.active } s x
            (List.mem_erase_of_ne hx)
            (by simp [hx]) Iff.rfl Iff.rfl Iff.rfl Iff.rfl Iff.rfl
          rw [hcg]; exact excl x
  | complete j h =>
      have hcnt := excl j
      have hnw : j ∉ s.waiting := by
        intro hmem
        unfold memCount at hcnt
        simp only [h, hmem, if_true] at hcnt
        omega
      have hnc : j ∉ s.completed := by
        intro hmem
        unfold memCount at hcnt
        simp only [h, hmem, if_true] at hcnt
        omega
      have hnd : j ∉ s.delayed.map Prod.fst := by
        intro hmem
        unfold memCount at hcnt
        simp only [h, hmem, if_true] at hcnt
        omega
      have hnp : j ∉ s.paused := by
        intro hmem
        unfold memCount at hcnt
        simp only [h, hmem, if_true] at hcnt
        omega
      have hndw : j ∉ s.depWait := by
        intro hmem
        unfold memCount at hcnt
        simp only [h, hmem, if_true] at hcnt
        omega
      have hndl : j ∉ s.deadLetter := by
        intro hmem
        unfold memCount at hcnt
        simp only [h, hmem, if_true] at hcnt
        omega
      refine ⟨ndW, nodup_lremAll _ _ ndA, List.nodup_cons.mpr ⟨hnc, ndC⟩,
        ndD, ndP, ndDW, ndDL, fun x => ?_⟩
      · by_cases hx : x = j
        · subst hx
          have ha' : x ∉ lremAll s.active x := not_mem_lremAll _ _
          have hc' : x ∈ x :: s.completed := by simp
          unfold memCount
          simp only [hnw, ha', hc', hnd, hnp, hndw, hndl, if_true, if_false]
          omega
        · have hcg := memCount_congr { s with
              active := lremAll s.active j,
              completed := j :: s.completed } s x
            Iff.rfl
            (by rw [mem_lremAll]; simp [hx])
            (by simp [hx]) Iff.rfl Iff.rfl Iff.rfl Iff.rfl
          rw [hcg]; exact excl x
  | promoteDependent j h =>
      have hcnt := excl j
      have hnw : j ∉ s.waiting := by
        intro hmem
        unfold memCount at hcnt
        simp only [h, hmem, if_true] at hcnt
        omega
      have hna : j ∉ s.active := by
        intro hmem
        unfold memCount at hcnt
        simp only [h, hmem, if_true] at hcnt
        omega
      have hnc : j ∉ s.completed := by
        intro hmem
        unfold memCount at hcnt
        simp only [h, hmem, if_true] at hcnt
        omega
      have hnd : j ∉ s.delayed.map Prod.fst := by
        intro hmem
        unfold memCount at hcnt
        simp only [h, hmem, if_true] at hcnt
        omega
      have hnp : j ∉ s.paused := by
        intro hmem
        unfold memCount at hcnt
        simp only [h, hmem, if_true] at hcnt
        omega
      have hndl : j ∉ s.deadLetter := by
        intro hmem
        unfold memCount at hcnt
        simp only [h, hmem, if_true] at hcnt
        omega
      refine ⟨List.nodup_cons.mpr ⟨hnw, ndW⟩, ndA, ndC, ndD, ndP,
        nodup_lremAll _ _ ndDW, ndDL, fun x => ?_⟩
      · by_cases hx : x = j
        · subst hx
          have hw' : x ∈ x :: s.waiting := by simp
          have hdw' : x ∉ lremAll s.depWait x := not_mem_lremAll _ _
          unfold memCount
          simp only [hw', hna, hnc, hnd, hnp, hdw', hndl, if_true, if_false]
          omega
        · have hcg := memCount_congr { s with
              depWait := lremAll s.depWait j,
              waiting := j :: s.waiting } s x
            (by simp [hx]) Iff.rfl Iff.rfl Iff.rfl Iff.rfl
            (by rw [mem_lremAll]; simp [hx]) Iff.rfl
          rw [hcg]; exact excl x
  | failNoRetry j h =>
      refine ⟨ndW, nodup_lremAll _ _ ndA, ndC, ndD, ndP, ndDW, ndDL,
        fun x => ?_⟩
      · by_cases hx : x = j
        · subst hx
          have hcnt := excl x
          have ha' : x ∉ lremAll s.active x := not_mem_lremAll _ _
          unfold memCount at hcnt ⊢
          simp only [h, if_true] at hcnt
          simp only [ha', if_false]
          omega
        · have hcg := memCount_congr { s with
              active := lremAll s.active j, failed := j :: s.failed } s x
            Iff.rfl (by rw [mem_lremAll]; simp [hx])
            Iff.rfl Iff.rfl Iff.rfl Iff.rfl Iff.rfl
          rw [hcg]; exact excl x
  | failRetryDelay j t h =>
      have hcnt := excl j
      have hnw : j ∉ s.waiting := by
        intro hmem
        unfold memCount at hcnt
        simp only [h, hmem, if_true] at hcnt
        omega
      have hnc : j ∉ s.completed := by
        intro hmem
        unfold memCount at hcnt
        simp only [h, hmem, if_true] at hcnt
        omega
      have hnd : j ∉ s.delayed.map Prod.fst := by
        intro hmem
        unfold memCount at hcnt
        simp only [h, hmem, if_true] at hcnt
        omega
      have hnp : j ∉ s.paused := by
        intro hmem
        unfold memCount at hcnt
        simp only [h, hmem, if_true] at hcnt
        omega
      have hndw : j ∉ s.depWait := by
        intro hmem
        unfold memCount at hcnt
        simp only [h, hmem, if_true] at hcnt
        omega
      have hndl : j ∉ s.deadLetter := by
        intro hmem
        unfold memCount at hcnt
        simp only [h, hmem, if_true] at hcnt
        omega
      refine ⟨ndW, nodup_lremAll _ _ ndA, ndC, ?_, ndP, ndDW, ndDL,
        fun x => ?_⟩
      · have hmapc : ((j, t) :: s.delayed).map Prod.fst
            = j :: s.delayed.map Prod.fst := rfl
        rw [hmapc]
        exact List.nodup_cons.mpr ⟨hnd, ndD⟩
      · by_cases hx : x = j
        · subst hx
          have ha' : x ∉ lremAll s.active x := not_mem_lremAll _ _
          have hd' : x ∈ ((x, t) :: s.delayed).map Prod.fst := by simp
          unfold memCount
          simp only [hnw, ha', hnc, hd', hnp, hndw, hndl, if_true, if_false]
          omega
        · have hcg := memCount_congr { s with
              active := lremAll s.active j, failed := j :: s.failed,
              delayed := (j, t) :: s.delayed } s x
            Iff.rfl (by rw [mem_lremAll]; simp [hx]) Iff.rfl
            (by simp [hx]) Iff.rfl Iff.rfl Iff.rfl
          rw [hcg]; exact excl x
  | failRetryNow j h =>
      have hcnt := excl j
      have hnw : j ∉ s.waiting := by
        intro hmem
        unfold memCount at hcnt
        simp only [h, hmem, if_true] at hcnt
        omega
      refine ⟨List.nodup_cons.mpr ⟨hnw, ndW⟩, nodup_lremAll _ _ ndA, ndC,
        ndD, ndP, ndDW, ndDL, fun x => ?_⟩
      · by_cases hx : x = j
        · subst hx
          have ha' : x ∉ lremAll s.active x := not_mem_lremAll _ _
          have hw' : x ∈ x :: s.waiting := by simp
          have hcnt := excl x
          unfold memCount at hcnt ⊢
          simp only [h, if_true] at hcnt
          simp only [ha', hw', if_true, if_false]
          omega
        · have hcg := memCount_congr { s with
              active := lremAll s.active j,
              failed := lremAll (j :: s.failed) j,
              waiting := j :: s.waiting } s x
            (by simp [hx]) (by rw [mem_lremAll]; simp [hx])
            Iff.rfl Iff.rfl Iff.rfl Iff.rfl Iff.rfl
          rw [hcg]; exact excl x
  | failDeadLetter j rfo h =>
      have hcnt := excl j
      have hndl : j ∉ s.deadLetter := by
        intro hmem
        unfold memCount at hcnt
        simp only [h, hmem, if_true] at hcnt
        omega
      refine ⟨ndW, nodup_lremAll _ _ ndA, ndC, ndD, ndP, ndDW,
        List.nodup_cons.mpr ⟨hndl, ndDL⟩, fun x => ?_⟩
      · by_cases hx : x = j
        · subst hx
          have ha' : x ∉ lremAll s.active x := not_mem_lremAll _ _
          have hdl' : x ∈ x :: s.deadLetter := by simp
          have hcnt := excl x
          unfold memCount at hcnt ⊢
          simp only [h, if_true] at hcnt
          simp only [ha', hdl', if_true, if_false]
          omega
        · have hcg := memCount_congr { s with
              active := lremAll s.active j,
              failed := if rfo then lremAll (j :: s.failed) j
                else j :: s.failed,
              deadLetter := j :: s.deadLetter } s x
            Iff.rfl (by rw [mem_lremAll]; simp [hx])
            Iff.rfl Iff.rfl Iff.rfl Iff.rfl (by simp [hx])
          rw [hcg]; exact excl x
  | stalledRecover j h =>
      have hcnt := excl j
      have hnw : j ∉ s.waiting := by
        intro hmem
        unfold memCount at hcnt
        simp only [h, hmem, if_true] at hcnt
        omega
      refine ⟨List.nodup_cons.mpr ⟨hnw, ndW⟩, nodup_lremAll _ _ ndA, ndC,
        ndD, ndP, ndDW, ndDL, fun x => ?_⟩
      · by_cases hx : x = j
        · subst hx
          have ha' : x ∉ lremAll s.active x := not_mem_lremAll _ _
          have hw' : x ∈ x :: s.waiting := by simp
          have hcnt := excl x
          unfold memCount at hcnt ⊢
          simp only [h, if_true] at hcnt
          simp only [ha', hw', if_true, if_false]
          omega
        · have hcg := memCount_congr { s with
              active := lremAll s.active j,
              waiting := j :: s.waiting } s x
            (by simp [hx]) (by rw [mem_lremAll]; simp [hx])
            Iff.rfl Iff.rfl Iff.rfl Iff.rfl Iff.rfl
          rw [hcg]; exact excl x
  | pauseJob j h =>
      have hcnt := excl j
      have hnp : j ∉ s.paused := by
        intro hmem
        unfold memCount at hcnt
        rcases h with hw | hd
        · simp only [hw, hmem, if_true] at hcnt
          omega
        · simp only [hd, hmem, if_true] at hcnt
          omega
      refine ⟨nodup_lremAll _ _ ndW, ndA, ndC, ?_, List.nodup_cons.mpr
        ⟨hnp, ndP⟩, ndDW, ndDL, fun x => ?_⟩
      · rw [map_fst_zrem]; exact nodup_lremAll _ _ ndD
      · by_cases hx : x = j
        · subst hx
          have hw' : x ∉ lremAll s.waiting x := not_mem_lremAll _ _
          have hd' : x ∉ (zrem s.delayed x).map Prod.fst := by
            rw [map_fst_zrem]; exact not_mem_lremAll _ _
          have hp' : x ∈ x :: s.paused := by simp
          have hcnt := excl x
          unfold memCount at hcnt ⊢
          simp only [hw', hd', hp', if_true, if_false]
          rcases h with hw | hd
          · simp only [hw, if_true] at hcnt
            omega
          · simp only [hd, if_true] at hcnt
            omega
        · have hcg := memCount_congr { s with
              waiting := lremAll s.waiting j, delayed := zrem s.delayed j,
              paused := j :: s.paused } s x
            (by rw [mem_lremAll]; simp [hx]) Iff.rfl Iff.rfl
            (by rw [map_fst_zrem]; rw [mem_lremAll]; simp [hx])
            (by simp [hx]) Iff.rfl Iff.rfl
          rw [hcg]; exact excl x
  | resumeJob j h =>
      have hcnt := excl j
      have hnw : j ∉ s.waiting := by
        intro hmem
        unfold memCount at hcnt
        simp only [h, hmem, if_true] at hcnt
        omega
      refine ⟨List.nodup_cons.mpr ⟨hnw, ndW⟩, ndA, ndC, ndD,
        nodup_lremAll _ _ ndP, ndDW, ndDL, fun x => ?_⟩
      · by_cases hx : x = j
        · subst hx
          have hp' : x ∉ lremAll s.paused x := not_mem_lremAll _ _
          have hw' : x ∈ x :: s.waiting := by simp
          have hcnt := excl x
          unfold memCount at hcnt ⊢
          simp only [h, if_true] at hcnt
          simp only [hp', hw', if_true, if_false]
          omega
        · have hcg := memCount_congr { s with
              paused := lremAll s.paused j,
              waiting := j :: s.waiting } s x
            (by simp [hx]) Iff.rfl Iff.rfl Iff.rfl
            (by rw [mem_lremAll]; simp [hx]) Iff.rfl Iff.rfl
          rw [hcg]; exact excl x


theorem inv_reach (s : QState) (h : Reach s) : Inv s := by
  unfold Reach at h
  induction h with
  | refl => exact inv_init
  | tail hab hbc ih => exact inv_step hbc ih

def cexState : QState := ⟨[], [], [], [1], [(1, 100)], [], [], []⟩

theorem cex_reach : Reach cexState := by
  have h1 : Step initState ⟨[1], [], [], [], [], [], [], []⟩ :=
    Step.addWaiting initState 1 false (by decide)
  have h2 : Step ⟨[1], [], [], [], [], [], [], []⟩
      ⟨[], [1], [], [], [], [], [], []⟩ :=
    Step.dispatch ⟨[1], [], [], [], [], [], [], []⟩ 1 (by decide)
  have h3 : Step ⟨[], [1], [], [], [], [], [], []⟩ cexState :=
    Step.failRetryDelay ⟨[], [1], [], [], [], [], [], []⟩ 1 100 (by decide)
  exact Relation.ReflTransGen.head h1
    (Relation.ReflTransGen.head h2 (Relation.ReflTransGen.single h3))

end QSM

/-- **C1 counterexample**: the trace add(1) → dispatch(1) → handler
failure with exponential backoff delay 100 reaches a state in which job 1
is simultaneously in the `failed` list and in the `delayed` sorted set —
the worker's retry path ZADDs into `delayed` without removing the id from
`failed` — so the job appears in two of the eight state structures at
once, refuting the claim as stated. -/
theorem C1_counterexample :
    QSM.Reach QSM.cexState
      ∧ (1 : Nat) ∈ QSM.cexState.failed
      ∧ (1 : Nat) ∈ QSM.cexState.delayed.map Prod.fst
      ∧ QSM.memCountFull QSM.cexState 1 = 2 :=
  ⟨QSM.cex_reach, by decide, by decide, by decide⟩

/-- **C1 (amended)** Single-state invariant without `failed`: at every
observable instant of any sequence of the modelled queue operations, a
job id appears in at most one of `{waiting, active, completed, delayed,
paused, dep-wait, dead-letter}`; membership in `failed` is excluded from
the mutual exclusion because a retryable failure with a positive backoff
delay leaves the id in `failed` while it is also in `delayed` (and later
`waiting`, `active`, `completed`). -/
theorem C1_single_state_invariant (s : QSM.QState) (h : QSM.Reach s)
    (j : Nat) : QSM.memCount s j ≤ 1 :=
  (QSM.inv_reach s h).excl j

/-- **C1 witness**: the amended invariant evaluated at the concrete
reachable state of the counterexample trace. -/
theorem C1_single_state_invariant_witness :
    QSM.memCount QSM.cexState 1 ≤ 1 :=
  C1_single_state_invariant QSM.cexState QSM.cex_reach 1

/-!
## C8: the cron scheduler

Minute-resolution model of `CronScheduler.getNextExecutionTime`
(part_003).  A point in time is the number of minutes since
0000-01-01 00:00 (proleptic Gregorian, as JavaScript `Date` uses);
`Date`'s calendar getters are derived through an explicit civil-calendar
conversion, and each `set*` mutation of the search loop becomes the
corresponding arithmetic step, with `MakeDay`'s day/month overflow
normalisation made explicit.  The timezone pre-adjustment (which formats
the clock through `Intl`) is outside the model.
-/

namespace Cron

/-- JavaScript leap-year rule (proleptic Gregorian, as `Date` uses). -/
def isLeap (y : Nat) : Bool :=
  (y % 4 == 0 && y % 100 != 0) || y % 400 == 0

def daysInYear (y : Nat) : Nat :=
  if isLeap y then 366 else 365

/-- Days from 0000-01-01 to the start of year `y`. -/
def yearStartDay : Nat → Nat
  | 0 => 0
  | y + 1 => yearStartDay y + daysInYear y

/-- Length of month `mo` (1–12) of year `y`. -/
def daysInMonth (y mo : Nat) : Nat :=
  if mo = 2 then (if isLeap y then 29 else 28)
  else if mo = 4 ∨ mo = 6 ∨ mo = 9 ∨ mo = 11 then 30
  else 31

/-- Days from the start of year `y` to the start of month `mo` (1–12). -/
def monthStartInYear (y : Nat) : Nat → Nat
  | 0 => 0
  | 1 => 0
  | mo + 2 => monthStartInYear y (mo + 1) + daysInMonth y (mo + 1)

/-- `MakeDay`-style absolute day number of (y, mo, d). -/
def daysFromCivil (y mo d : Nat) : Nat :=
  yearStartDay y + monthStartInYear y mo + (d - 1)

structure CivilDate where
  year : Nat
  month : Nat
  day : Nat
deriving DecidableEq, Repr

/-- Peel whole years off a day count (fuel-bounded so the kernel can
evaluate it; `fuel = n + 1` always suffices). -/
def peelYears : Nat → Nat → Nat → Nat × Nat
  | 0, y, n => (y, n)
  | fuel + 1, y, n =>
      if n < daysInYear y then (y, n)
      else peelYears fuel (y + 1) (n - daysInYear y)

/-- Peel whole months off a day-of-year (12 units of fuel suffice). -/
def peelMonths : Nat → Nat → Nat → Nat → Nat × Nat
  | 0, _, mo, n => (mo, n)
  | fuel + 1, y, mo, n =>
      if n < daysInMonth y mo then (mo, n)
      else peelMonths fuel y (mo + 1) (n - daysInMonth y mo)

/-- Absolute day number to calendar date. -/
def civilFromDays (n : Nat) : CivilDate :=
  let yr := peelYears (n + 1) 0 n
  let md := peelMonths 12 yr.1 1 yr.2
  ⟨yr.1, md.1, md.2 + 1⟩

/-- Calendar accessors of a minute-count `t` (minutes since
0000-01-01 00:00), mirroring the `Date` getters the scheduler calls. -/
def getMinutes (t : Nat) : Nat := t % 60
def getHours (t : Nat) : Nat := t % 1440 / 60
def getDate (t : Nat) : Nat := (civilFromDays (t / 1440)).day
def getMonth1 (t : Nat) : Nat := (civilFromDays (t / 1440)).month
def getFullYear (t : Nat) : Nat := (civilFromDays (t / 1440)).year
/-- `Date.getDay`: 0 = Sunday.  0000-01-01 is a Saturday (= 6). -/
def getDay (t : Nat) : Nat := (t / 1440 + 6) % 7

end Cron


namespace Cron

/-- `date.setMinutes(m + 1, 0, 0)` with seconds already zero: one minute
forward. -/
def skipToNextMinute (t : Nat) : Nat := t + 1

/-- `date.setHours(h + 1, 0, 0, 0)`: start of the next hour. -/
def skipToNextHour (t : Nat) : Nat := (t / 60 + 1) * 60

/-- `date.setDate(d + 1); date.setHours(0,0,0,0)`: start of the next day
(`MakeDay` turns a day overflow into the following month). -/
def skipToNextDay (t : Nat) : Nat := (t / 1440 + 1) * 1440

/-- `date.setMonth(mo + 1); date.setDate(1); date.setHours(0,0,0,0)`:
`setMonth` keeps the day-of-month, `MakeDay` normalising an overflowing
day into the following month (e.g. Jan 31 → Mar 3); `setDate(1)` then
moves to the first of whatever month that lands in. -/
def skipToNextMonth (t : Nat) : Nat :=
  let d := t / 1440
  let c := civilFromDays d
  let y1 := if c.month = 12 then c.year + 1 else c.year
  let mo1 := if c.month = 12 then 1 else c.month + 1
  let candidate := daysFromCivil y1 mo1 c.day
  let c2 := civilFromDays candidate
  daysFromCivil c2.year c2.month 1 * 1440

/-- `CronSchedule` (part_003): `null` is the `*` wildcard. -/
structure CronSchedule where
  minute : Option (List Nat)
  hour : Option (List Nat)
  dayOfMonth : Option (List Nat)
  month : Option (List Nat)
  dayOfWeek : Option (List Nat)
deriving DecidableEq, Repr

/-- `schedule.field !== null && !schedule.field.includes(v)` negated:
a `null` field matches everything. -/
def fieldMatches (field : Option (List Nat)) (v : Nat) : Bool :=
  match field with
  | none => true
  | some l => l.contains v

/-- The bounded search loop of `getNextExecutionTime` (part_003 lines
261–307): at most 1000 iterations, each advancing the earliest failing
field (month → day-of-month → day-of-week → hour → minute); when every
field matches, the current time is the next execution time. -/
def cronLoop (S : CronSchedule) : Nat → Nat → Option Nat
  | 0, _ => none
  | fuel + 1, t =>
      if ¬ fieldMatches S.month (getMonth1 t) then
        cronLoop S fuel (skipToNextMonth t)
      else if ¬ fieldMatches S.dayOfMonth (getDate t) then
        cronLoop S fuel (skipToNextDay t)
      else if ¬ fieldMatches S.dayOfWeek (getDay t) then
        cronLoop S fuel (skipToNextDay t)
      else if ¬ fieldMatches S.hour (getHours t) then
        cronLoop S fuel (skipToNextHour t)
      else if ¬ fieldMatches S.minute (getMinutes t) then
        cronLoop S fuel (skipToNextMinute t)
      else
        some t

/-- `getNextExecutionTime` (without the timezone pre-adjustment, which
goes through `Intl` wall-clock formatting and is outside this model):
zero the seconds, advance one minute, then run the bounded search.
Times are minute counts; `nowMs` is in milliseconds. -/
def getNextExecutionTime (S : CronSchedule) (nowMs : Nat) : Option Nat :=
  cronLoop S 1000 (nowMs / 60000 + 1)

end Cron

namespace Cron

theorem daysInYear_pos (y : Nat) : 0 < daysInYear y := by
  unfold daysInYear
  split <;> omega

theorem daysInMonth_pos (y mo : Nat) : 0 < daysInMonth y mo := by
  unfold daysInMonth
  split
  · split <;> omega
  · split <;> omega

theorem monthStart_succ (y mo : Nat) (h : 1 ≤ mo) :
    monthStartInYear y (mo + 1) = monthStartInYear y mo + daysInMonth y mo := by
  cases mo with
  | zero => omega
  | succ k => rfl

theorem monthStart_year_end (y : Nat) :
    monthStartInYear y 13 = daysInYear y := by
  cases h : isLeap y <;>
    simp [monthStartInYear, daysInMonth, daysInYear, h]

theorem monthStart_mono (y : Nat) :
    ∀ a b : Nat, 1 ≤ a → a ≤ b →
      monthStartInYear y a ≤ monthStartInYear y b := by
  intro a b ha hab
  induction b with
  | zero => omega
  | succ k ih =>
      by_cases hk : a = k + 1
      · subst hk; exact le_refl _
      · have hak : a ≤ k := by omega
        have h1k : 1 ≤ k := by omega
        calc monthStartInYear y a ≤ monthStartInYear y k := ih hak
          _ ≤ monthStartInYear y (k + 1) := by
              rw [monthStart_succ y k h1k]; omega

theorem monthStart_le_year (y mo : Nat) (h : mo ≤ 13) :
    monthStartInYear y mo ≤ daysInYear y := by
  rcases Nat.eq_zero_or_pos mo with h0 | h1
  · subst h0; simp [monthStartInYear]
  · rw [← monthStart_year_end y]
    exact monthStart_mono y mo 13 h1 h

theorem yearStart_add_le (a : Nat) : ∀ k : Nat,
    yearStartDay a ≤ yearStartDay (a + k) := by
  intro k
  induction k with
  | zero => exact le_refl _
  | succ m ih =>
      have h2 : yearStartDay (a + m + 1)
          = yearStartDay (a + m) + daysInYear (a + m) := rfl
      have : a + (m + 1) = a + m + 1 := by omega
      rw [this, h2]
      omega

theorem yearStart_mono (a b : Nat) (hab : a ≤ b) :
    yearStartDay a ≤ yearStartDay b := by
  have := yearStart_add_le a (b - a)
  have heq : a + (b - a) = b := by omega
  rw [heq] at this
  exact this

theorem peelYears_spec : ∀ (fuel y n : Nat), n < fuel →
    yearStartDay (peelYears fuel y n).1 + (peelYears fuel y n).2
        = yearStartDay y + n
      ∧ (peelYears fuel y n).2 < daysInYear (peelYears fuel y n).1
      ∧ y ≤ (peelYears fuel y n).1 := by
  intro fuel
  induction fuel with
  | zero => intro y n h; omega
  | succ f ih =>
      intro y n h
      unfold peelYears
      by_cases hlt : n < daysInYear y
      · rw [if_pos hlt]
        exact ⟨rfl, hlt, le_refl _⟩
      · rw [if_neg hlt]
        have hd := daysInYear_pos y
        have hrec := ih (y + 1) (n - daysInYear y) (by omega)
        have hys : yearStartDay (y + 1) = yearStartDay y + daysInYear y := rfl
        refine ⟨by omega, hrec.2.1, by omega⟩

theorem peelMonths_spec : ∀ (fuel y mo n : Nat),
    1 ≤ mo → mo ≤ 12 → 13 - mo ≤ fuel →
    monthStartInYear y mo + n < daysInYear y →
    monthStartInYear y (peelMonths fuel y mo n).1 + (peelMonths fuel y mo n).2
        = monthStartInYear y mo + n
      ∧ 1 ≤ (peelMonths fuel y mo n).1
      ∧ (peelMonths fuel y mo n).1 ≤ 12
      ∧ (peelMonths fuel y mo n).2 < daysInMonth y (peelMonths fuel y mo n).1 := by
  intro fuel
  induction fuel with
  | zero => intro y mo n h1 h2 hf _; omega
  | succ f ih =>
      intro y mo n h1 h2 hf hbound
      unfold peelMonths
      by_cases hlt : n < daysInMonth y mo
      · rw [if_pos hlt]
        exact ⟨rfl, h1, h2, hlt⟩
      · rw [if_neg hlt]
        have hmo12 : mo ≠ 12 := by
          intro h12
          subst h12
          have : monthStartInYear y 13 = monthStartInYear y 12
              + daysInMonth y 12 := monthStart_succ y 12 (by omega)
          rw [monthStart_year_end] at this
          omega
        have hsucc : monthStartInYear y (mo + 1)
            = monthStartInYear y mo + daysInMonth y mo :=
          monthStart_succ y mo h1
        have hrec := ih y (mo + 1) (n - daysInMonth y mo)
          (by omega) (by omega) (by omega) (by omega)
        refine ⟨by omega, hrec.2.1, hrec.2.2.1, hrec.2.2.2⟩

theorem civilFromDays_spec (n : Nat) :
    daysFromCivil (civilFromDays n).year (civilFromDays n).month
        (civilFromDays n).day = n
      ∧ 1 ≤ (civilFromDays n).month ∧ (civilFromDays n).month ≤ 12
      ∧ 1 ≤ (civilFromDays n).day
      ∧ (civilFromDays n).day ≤ daysInMonth (civilFromDays n).year
          (civilFromDays n).month := by
  have hy := peelYears_spec (n + 1) 0 n (by omega)
  have hms1 : monthStartInYear (peelYears (n + 1) 0 n).1 1 = 0 := rfl
  have hm := peelMonths_spec 12 (peelYears (n + 1) 0 n).1 1
    (peelYears (n + 1) 0 n).2 (by omega) (by omega) (by omega)
    (by rw [hms1]; omega)
  have hyear : (civilFromDays n).year = (peelYears (n + 1) 0 n).1 := rfl
  have hmonth : (civilFromDays n).month
      = (peelMonths 12 (peelYears (n + 1) 0 n).1 1
          (peelYears (n + 1) 0 n).2).1 := rfl
  have hday : (civilFromDays n).day
      = (peelMonths 12 (peelYears (n + 1) 0 n).1 1
          (peelYears (n + 1) 0 n).2).2 + 1 := rfl
  have h0 : yearStartDay 0 = 0 := rfl
  refine ⟨?_, ?_, ?_, ?_, ?_⟩
  · unfold daysFromCivil
    rw [hyear, hmonth, hday]
    have h1 := hy.1
    have h2 := hm.1
    rw [hms1] at h2
    omega
  · rw [hmonth]; exact hm.2.1
  · rw [hmonth]; exact hm.2.2.1
  · rw [hday]; omega
  · rw [hyear, hmonth, hday]
    have := hm.2.2.2
    omega
end Cron

namespace Cron

/-- Absolute day number of the start of the month containing day `n`. -/
def monthStartAbs (n : Nat) : Nat :=
  yearStartDay (civilFromDays n).year
    + monthStartInYear (civilFromDays n).year (civilFromDays n).month

theorem monthStartAbs_le (n : Nat) : monthStartAbs n ≤ n := by
  have h := (civilFromDays_spec n).1
  have hd := (civilFromDays_spec n).2.2.2.1
  unfold daysFromCivil at h
  unfold monthStartAbs
  omega

theorem lt_monthStartAbs_add (n : Nat) :
    n < monthStartAbs n + daysInMonth (civilFromDays n).year
      (civilFromDays n).month := by
  have h := (civilFromDays_spec n).1
  have hd1 := (civilFromDays_spec n).2.2.2.1
  have hd2 := (civilFromDays_spec n).2.2.2.2
  unfold daysFromCivil at h
  unfold monthStartAbs
  omega

/-- No month boundary lies strictly inside another month: any month
start at or before day `n` is at or before the start of the month
containing `n`. -/
theorem boundary_le_monthStartAbs (n yb mob : Nat) (h1 : 1 ≤ mob)
    (h2 : mob ≤ 12)
    (hle : yearStartDay yb + monthStartInYear yb mob ≤ n) :
    yearStartDay yb + monthStartInYear yb mob ≤ monthStartAbs n := by
  have hspec := civilFromDays_spec n
  have hm1 := hspec.2.1
  have hm2 := hspec.2.2.1
  have heq := hspec.1
  unfold daysFromCivil at heq
  rcases Nat.lt_trichotomy yb (civilFromDays n).year with hlt | hEq | hgt
  · -- earlier year: the boundary is at or before that year's end
    have hb : monthStartInYear yb mob ≤ daysInYear yb :=
      monthStart_le_year yb mob (by omega)
    have hy1 : yearStartDay (yb + 1) = yearStartDay yb + daysInYear yb := rfl
    have hy2 : yearStartDay (yb + 1)
        ≤ yearStartDay (civilFromDays n).year :=
      yearStart_mono _ _ (by omega)
    unfold monthStartAbs
    omega
  · -- same year: compare month starts
    rw [hEq] at hle ⊢
    by_cases hmm : mob ≤ (civilFromDays n).month
    · have hmono := monthStart_mono (civilFromDays n).year mob
        (civilFromDays n).month h1 hmm
      unfold monthStartAbs
      omega
    · -- the boundary would start past day n
      have hsucc := monthStart_succ (civilFromDays n).year
        (civilFromDays n).month hm1
      have hmono := monthStart_mono (civilFromDays n).year
        ((civilFromDays n).month + 1) mob (by omega) (by omega)
      have hday := hspec.2.2.2.2
      have hd1 := hspec.2.2.2.1
      unfold monthStartAbs
      omega
  · -- later year: the boundary starts past day n
    have hy1 : yearStartDay ((civilFromDays n).year + 1)
        = yearStartDay (civilFromDays n).year
          + daysInYear (civilFromDays n).year := rfl
    have hy2 : yearStartDay ((civilFromDays n).year + 1) ≤ yearStartDay yb :=
      yearStart_mono _ _ (by omega)
    have hsucc := monthStart_succ (civilFromDays n).year
      (civilFromDays n).month hm1
    have hbound : monthStartInYear (civilFromDays n).year
          ((civilFromDays n).month + 1)
        ≤ daysInYear (civilFromDays n).year :=
      monthStart_le_year _ _ (by omega)
    have hday := hspec.2.2.2.2
    have hd1 := hspec.2.2.2.1
    unfold monthStartAbs
    omega

/-- The start of the month after the month containing day `n`, as an
absolute day number: exactly `daysInMonth` past the month start. -/
theorem next_month_boundary (n : Nat) :
    yearStartDay (if (civilFromDays n).month = 12
        then (civilFromDays n).year + 1 else (civilFromDays n).year)
      + monthStartInYear (if (civilFromDays n).month = 12
        then (civilFromDays n).year + 1 else (civilFromDays n).year)
        (if (civilFromDays n).month = 12
          then 1 else (civilFromDays n).month + 1)
      = monthStartAbs n
        + daysInMonth (civilFromDays n).year (civilFromDays n).month := by
  have hm1 := (civilFromDays_spec n).2.1
  by_cases h12 : (civilFromDays n).month = 12
  · simp only [if_pos h12]
    have h1 : yearStartDay ((civilFromDays n).year + 1)
        = yearStartDay (civilFromDays n).year
          + daysInYear (civilFromDays n).year := rfl
    have h2 : monthStartInYear ((civilFromDays n).year + 1) 1 = 0 := rfl
    have h3 : monthStartInYear (civilFromDays n).year 13
        = monthStartInYear (civilFromDays n).year 12
          + daysInMonth (civilFromDays n).year 12 :=
      monthStart_succ (civilFromDays n).year 12 (by omega)
    have h4 := monthStart_year_end (civilFromDays n).year
    unfold monthStartAbs
    rw [h12]
    omega
  · simp only [if_neg h12]
    have h3 := monthStart_succ (civilFromDays n).year
      (civilFromDays n).month hm1
    unfold monthStartAbs
    omega

theorem skipToNextMonth_gt (t : Nat) : t < skipToNextMonth t := by
  have hnb := next_month_boundary (t / 1440)
  have hlt := lt_monthStartAbs_add (t / 1440)
  have hcand : monthStartAbs (t / 1440)
        + daysInMonth (civilFromDays (t / 1440)).year
          (civilFromDays (t / 1440)).month
      ≤ daysFromCivil
        (if (civilFromDays (t / 1440)).month = 12
          then (civilFromDays (t / 1440)).year + 1
          else (civilFromDays (t / 1440)).year)
        (if (civilFromDays (t / 1440)).month = 12
          then 1 else (civilFromDays (t / 1440)).month + 1)
        (civilFromDays (t / 1440)).day := by
    unfold daysFromCivil
    omega
  have hb := boundary_le_monthStartAbs
    (daysFromCivil
      (if (civilFromDays (t / 1440)).month = 12
        then (civilFromDays (t / 1440)).year + 1
        else (civilFromDays (t / 1440)).year)
      (if (civilFromDays (t / 1440)).month = 12
        then 1 else (civilFromDays (t / 1440)).month + 1)
      (civilFromDays (t / 1440)).day)
    (if (civilFromDays (t / 1440)).month = 12
      then (civilFromDays (t / 1440)).year + 1
      else (civilFromDays (t / 1440)).year)
    (if (civilFromDays (t / 1440)).month = 12
      then 1 else (civilFromDays (t / 1440)).month + 1)
    (by split <;> omega)
    (by have := (civilFromDays_spec (t / 1440)).2.2.1; split <;> omega)
    (by unfold daysFromCivil; omega)
  have hmod : t < (t / 1440 + 1) * 1440 := by omega
  simp only [skipToNextMonth]
  unfold daysFromCivil monthStartAbs at *
  omega

end Cron

namespace Cron

theorem skipToNextHour_gt (t : Nat) : t < skipToNextHour t := by
  unfold skipToNextHour
  omega

theorem skipToNextDay_gt (t : Nat) : t < skipToNextDay t := by
  unfold skipToNextDay
  omega

/-- Every loop iteration moves time forward, so a found execution time is
at or after the starting minute. -/
theorem cronLoop_ge (S : CronSchedule) :
    ∀ (fuel t r : Nat), cronLoop S fuel t = some r → t ≤ r := by
  intro fuel
  induction fuel with
  | zero => intro t r h; simp [cronLoop] at h
  | succ f ih =>
      intro t r h
      unfold cronLoop at h
      by_cases h1 : fieldMatches S.month (getMonth1 t)
      · rw [if_neg (by simp [h1])] at h
        by_cases h2 : fieldMatches S.dayOfMonth (getDate t)
        · rw [if_neg (by simp [h2])] at h
          by_cases h3 : fieldMatches S.dayOfWeek (getDay t)
          · rw [if_neg (by simp [h3])] at h
            by_cases h4 : fieldMatches S.hour (getHours t)
            · rw [if_neg (by simp [h4])] at h
              by_cases h5 : fieldMatches S.minute (getMinutes t)
              · rw [if_neg (by simp [h5])] at h
                exact le_of_eq (Option.some.inj h)
              · rw [if_pos (by simp [h5])] at h
                have := ih _ _ h
                unfold skipToNextMinute at this
                omega
            · rw [if_pos (by simp [h4])] at h
              have := ih _ _ h
              have := skipToNextHour_gt t
              omega
          · rw [if_pos (by simp [h3])] at h
            have := ih _ _ h
            have := skipToNextDay_gt t
            omega
        · rw [if_pos (by simp [h2])] at h
          have := ih _ _ h
          have := skipToNextDay_gt t
          omega
      · rw [if_pos (by simp [h1])] at h
        have := ih _ _ h
        have := skipToNextMonth_gt t
        omega

/-- A found execution time satisfies every non-wildcard field. -/
theorem cronLoop_matches (S : CronSchedule) :
    ∀ (fuel t r : Nat), cronLoop S fuel t = some r →
      fieldMatches S.month (getMonth1 r) = true
      ∧ fieldMatches S.dayOfMonth (getDate r) = true
      ∧ fieldMatches S.dayOfWeek (getDay r) = true
      ∧ fieldMatches S.hour (getHours r) = true
      ∧ fieldMatches S.minute (getMinutes r) = true := by
  intro fuel
  induction fuel with
  | zero => intro t r h; simp [cronLoop] at h
  | succ f ih =>
      intro t r h
      unfold cronLoop at h
      by_cases h1 : fieldMatches S.month (getMonth1 t)
      · rw [if_neg (by simp [h1])] at h
        by_cases h2 : fieldMatches S.dayOfMonth (getDate t)
        · rw [if_neg (by simp [h2])] at h
          by_cases h3 : fieldMatches S.dayOfWeek (getDay t)
          · rw [if_neg (by simp [h3])] at h
            by_cases h4 : fieldMatches S.hour (getHours t)
            · rw [if_neg (by simp [h4])] at h
              by_cases h5 : fieldMatches S.minute (getMinutes t)
              · rw [if_neg (by simp [h5])] at h
                have hr : r = t := (Option.some.inj h).symm
                subst hr
                exact ⟨h1, h2, h3, h4, h5⟩
              · rw [if_pos (by simp [h5])] at h
                exact ih _ _ h
            · rw [if_pos (by simp [h4])] at h
              exact ih _ _ h
          · rw [if_pos (by simp [h3])] at h
            exact ih _ _ h
        · rw [if_pos (by simp [h2])] at h
          exact ih _ _ h
      · rw [if_pos (by simp [h1])] at h
        exact ih _ _ h

end Cron

namespace Cron

/-- JavaScript `Number.parseInt` restricted to the shapes the cron parser
feeds it: the leading run of decimal digits, `NaN` (`none`) when there is
none. -/
def jsParseInt (cs : List Char) : Option Nat :=
  let ds := cs.takeWhile Char.isDigit
  if ds.isEmpty then none
  else some (ds.foldl (fun n c => n * 10 + (c.toNat - 48)) 0)

/-- `String.prototype.split(sep)` for a one-character separator. -/
def splitOnChar (sep : Char) (cs : List Char) : List (List Char) :=
  cs.foldr
    (fun c acc =>
      match acc with
      | [] => [[c]]
      | g :: gs => if c = sep then [] :: g :: gs else (c :: g) :: gs)
    [[]]

/-- `expression.trim().split(/\s+/)`: the whitespace-separated tokens. -/
def wsTokens (cs : List Char) : List (List Char) :=
  (cs.foldr
    (fun c acc =>
      match acc with
      | [] => [[c]]
      | g :: gs => if c.isWhitespace then [] :: g :: gs
        else (c :: g) :: gs)
    [[]]).filter (fun g => ¬ g.isEmpty)

/-- `for (i = start; i <= end; i++) values.add(i)`. -/
def rangeList (a b : Nat) : List Nat :=
  (List.range (b + 1 - a)).map (fun k => a + k)

/-- `for (i = start; i <= max; i += step) values.add(i)`. -/
def stepList (start stp mx : Nat) : List Nat :=
  if mx < start then []
  else (List.range ((mx - start) / stp + 1)).map (fun k => start + k * stp)

/-- Insert into a sorted duplicate-free list (the `Set` plus numeric
`sort` of `parseField`). -/
def insertNat (x : Nat) : List Nat → List Nat
  | [] => [x]
  | y :: ys =>
      if x < y then x :: y :: ys
      else if x = y then y :: ys
      else y :: insertNat x ys

/-- `Array.from(values).sort((a, b) => a - b)` over the collected set. -/
def sortedDedup (l : List Nat) : List Nat :=
  l.foldl (fun acc x => insertNat x acc) []

/-- One comma-separated part of a cron field (part_003 lines 156–202):
a `a-b` range, a `range/step` step expression, or a single value. -/
def parsePart (mn mx : Nat) (part : List Char) : Option (List Nat) :=
  if part.contains '-' then
    let ps := splitOnChar '-' part
    match jsParseInt (ps.getD 0 []), jsParseInt (ps.getD 1 []) with
    | some a, some b =>
        if a < mn ∨ mx < b ∨ b < a then none else some (rangeList a b)
    | _, _ => none
  else if part.contains '/' then
    let ps := splitOnChar '/' part
    match jsParseInt (ps.getD 1 []) with
    | some stp =>
        if stp = 0 then none
        else
          let range := ps.getD 0 []
          let start :=
            if range = ['*'] then mn
            else match jsParseInt range with
              | some v => v
              | none => mn
          some (stepList start stp mx)
    | none => none
  else
    match jsParseInt part with
    | some v => if v < mn ∨ mx < v then none else some [v]
    | none => none

/-- `parseField` (part_003 lines 145–205): `*` means every value
(`null`); otherwise the sorted set of the values of all comma-separated
parts, or an error (`none`). -/
def parseField (field : List Char) (mn mx : Nat) :
    Option (Option (List Nat)) :=
  if field = ['*'] then some none
  else
    match (splitOnChar ',' field).foldl
      (fun acc part =>
        match acc with
        | none => none
        | some vs =>
            match parsePart mn mx part with
            | none => none
            | some vs' => some (vs ++ vs'))
      (some []) with
    | none => none
    | some vs => some (some (sortedDedup vs))

/-- `parseCronExpression` (part_003 lines 122–136): five
whitespace-separated fields with the standard ranges. -/
def parseCronExpression (expression : String) : Option CronSchedule :=
  let parts := wsTokens expression.data
  if parts.length ≠ 5 then none
  else
    match parseField (parts.getD 0 []) 0 59,
          parseField (parts.getD 1 []) 0 23,
          parseField (parts.getD 2 []) 1 31,
          parseField (parts.getD 3 []) 1 12,
          parseField (parts.getD 4 []) 0 6 with
    | some mi, some h, some dom, some mo, some dw =>
        some ⟨mi, h, dom, mo, dw⟩
    | _, _, _, _, _ => none

end Cron


/-- **C8** Cron next-fire strictly later: for every successfully parsed
5-field cron expression and every starting time, a next execution time
found by the bounded search is strictly later than the starting time,
satisfies every non-wildcard field constraint, and recomputing from it
yields a strictly later time again. -/
theorem C8_cron_next_fire_strictly_later (expr : String)
    (S : Cron.CronSchedule) (nowMs r : Nat)
    (hparse : Cron.parseCronExpression expr = some S)
    (hfound : Cron.getNextExecutionTime S nowMs = some r) :
    nowMs < r * 60000
    ∧ (∀ l, S.minute = some l → Cron.getMinutes r ∈ l)
    ∧ (∀ l, S.hour = some l → Cron.getHours r ∈ l)
    ∧ (∀ l, S.dayOfMonth = some l → Cron.getDate r ∈ l)
    ∧ (∀ l, S.month = some l → Cron.getMonth1 r ∈ l)
    ∧ (∀ l, S.dayOfWeek = some l → Cron.getDay r ∈ l)
    ∧ (∀ r', Cron.getNextExecutionTime S (r * 60000) = some r' → r < r') := by
  unfold Cron.getNextExecutionTime at hfound
  have hge := Cron.cronLoop_ge S 1000 (nowMs / 60000 + 1) r hfound
  have hmat := Cron.cronLoop_matches S 1000 (nowMs / 60000 + 1) r hfound
  refine ⟨?_, ?_, ?_, ?_, ?_, ?_, ?_⟩
  · have h1 : nowMs < (nowMs / 60000 + 1) * 60000 := by omega
    have h2 : (nowMs / 60000 + 1) * 60000 ≤ r * 60000 :=
      Nat.mul_le_mul_right _ hge
    omega
  · intro l hl
    have := hmat.2.2.2.2
    rw [hl] at this
    simpa [Cron.fieldMatches] using this
  · intro l hl
    have := hmat.2.2.2.1
    rw [hl] at this
    simpa [Cron.fieldMatches] using this
  · intro l hl
    have := hmat.2.1
    rw [hl] at this
    simpa [Cron.fieldMatches] using this
  · intro l hl
    have := hmat.1
    rw [hl] at this
    simpa [Cron.fieldMatches] using this
  · intro l hl
    have := hmat.2.2.1
    rw [hl] at this
    simpa [Cron.fieldMatches] using this
  · intro r' hr'
    unfold Cron.getNextExecutionTime at hr'
    have hge' := Cron.cronLoop_ge S 1000 (r * 60000 / 60000 + 1) r' hr'
    have hdiv : r * 60000 / 60000 = r := by
      exact Nat.mul_div_cancel r (by omega)
    omega

/-- **C8 witness**: the schedule `30 3 * * *` parsed from its expression,
searched from time 0: the found time is minute 210 of day 0
(03:30), strictly later than 0, matching both fields, and recomputing
from it gives a strictly later time again. -/
theorem C8_cron_witness :
    (0 : Nat) < 210 * 60000
    ∧ (∀ l, (Cron.CronSchedule.mk (some [30]) (some [3]) none none
        none).minute = some l → Cron.getMinutes 210 ∈ l)
    ∧ (∀ r', Cron.getNextExecutionTime
        ⟨some [30], some [3], none, none, none⟩ (210 * 60000) = some r' →
        210 < r') := by
  have h := C8_cron_next_fire_strictly_later "30 3 * * *"
    ⟨some [30], some [3], none, none, none⟩ 0 210 (by decide) (by decide)
  exact ⟨h.1, h.2.1, h.2.2.2.2.2.2⟩
